import Mathlib

/-!
Verification of the Scarlett client application (`static/app.js`).

The development shallowly embeds the claim-relevant parts of the client:

* `Scarlet.splitBySentence` — the sentence segmenter used by the TTS pipeline;
* `Scarlet.SSE` — the event-stream consumer loop of `sendMessage`
  (incremental UTF-8 decoding, line reassembly, event-type/data protocol);
* `Scarlet.Asm` — the streaming response assembler of `sendMessage`
  (token accumulation, `done`/`error` handling, fallback finalizer);
* `Scarlet.TTS` — a small-step operational model of `playTTS`/`stopTTS`
  (cancellation token, prefetch loop, playback resource lifecycle).

Strings manipulated by the segmenter are modelled as `List Char`; the byte
stream of the consumer is modelled as `List Nat` (byte values), decoded to
`List Nat` of code points.
-/

namespace Scarlet

/-! ## Sentence segmenter (`splitBySentence`, app.js lines 150-163) -/

/-- The sentence-terminal characters of the source: `'。！？!?\n'.includes(c)`. -/
def isTerm (c : Char) : Bool :=
  c = '。' || c = '！' || c = '？' || c = '!' || c = '?' || c = '\n'

/-- JavaScript `String.prototype.trim` whitespace (WhiteSpace ∪ LineTerminator). -/
def isWS (c : Char) : Bool :=
  c.toNat = 0x20 || c.toNat = 0x9 || c.toNat = 0xA || c.toNat = 0xB ||
  c.toNat = 0xC || c.toNat = 0xD || c.toNat = 0xA0 || c.toNat = 0x1680 ||
  (0x2000 ≤ c.toNat && c.toNat ≤ 0x200A) || c.toNat = 0x2028 ||
  c.toNat = 0x2029 || c.toNat = 0x202F || c.toNat = 0x205F ||
  c.toNat = 0x3000 || c.toNat = 0xFEFF

/-- `s.trim()` on the character-list model. -/
def jsTrim (cs : List Char) : List Char :=
  ((cs.dropWhile isWS).reverse.dropWhile isWS).reverse

/-- The scanning loop of `splitBySentence`: `current` accumulates characters;
a terminator closes the chunk (trimmed, dropped when empty); the trailing
remainder is emitted when its trim is non-empty. -/
def sbsGo : List Char → List Char → List (List Char)
  | [], current =>
    let rest := jsTrim current
    if rest.isEmpty then [] else [rest]
  | c :: cs, current =>
    let cur' := current ++ [c]
    if isTerm c then
      let t := jsTrim cur'
      if t.isEmpty then sbsGo cs [] else t :: sbsGo cs []
    else
      sbsGo cs cur'

/-- `splitBySentence` (app.js 150-163): chunk list, with the raw text as a
single chunk when no non-empty chunk was produced. -/
def splitBySentence (text : List Char) : List (List Char) :=
  let chunks := sbsGo text []
  if chunks.isEmpty then [text] else chunks

/-! Spec-style reformulation for claim C7: cut the text after every
terminator character, trim each piece, drop empty pieces. -/

/-- Cut a text into pieces, each piece ending right after a terminator
character; the final piece (possibly empty) has no terminator. -/
def splitAfterTerm : List Char → List (List Char)
  | [] => [[]]
  | c :: cs =>
    if isTerm c then [c] :: splitAfterTerm cs
    else (splitAfterTerm cs).modifyHead (c :: ·)

/-- Reference segmentation following the specification's words: close a chunk
at each terminator, trim, drop whitespace-only chunks, fall back to the raw
text when nothing remains. -/
def sbsSpec (text : List Char) : List (List Char) :=
  let cs := (((splitAfterTerm text).map jsTrim).filter (fun t => !t.isEmpty))
  if cs.isEmpty then [text] else cs

lemma splitAfterTerm_ne_nil (cs : List Char) : splitAfterTerm cs ≠ [] := by
  induction cs with
  | nil => simp [splitAfterTerm]
  | cons c cs ih =>
    simp only [splitAfterTerm]
    split
    · simp
    · cases h : splitAfterTerm cs with
      | nil => exact absurd h ih
      | cons a l => simp [h, List.modifyHead]

lemma modifyHead_nil_append (l : List (List Char)) :
    l.modifyHead (([] : List Char) ++ ·) = l := by
  cases l <;> simp [List.modifyHead]

lemma modifyHead_comp (f g : List Char → List Char) (l : List (List Char)) :
    (l.modifyHead g).modifyHead f = l.modifyHead (fun x => f (g x)) := by
  cases l <;> simp [List.modifyHead]

/-- The loop of the source agrees with the spec-style pipeline, for an
arbitrary accumulator. -/
lemma sbsGo_eq (cs : List Char) (cur : List Char) :
    sbsGo cs cur =
      (((splitAfterTerm cs).modifyHead (cur ++ ·)).map jsTrim).filter
        (fun t => !t.isEmpty) := by
  induction cs generalizing cur with
  | nil =>
    simp only [sbsGo, splitAfterTerm, List.modifyHead, List.map, List.append_nil,
      List.filter]
    by_cases h : (jsTrim cur).isEmpty
    · simp [h]
    · simp [h]
  | cons c cs ih =>
    simp only [sbsGo, splitAfterTerm]
    by_cases hterm : isTerm c
    · simp only [hterm, if_true, List.modifyHead, List.map, List.filter]
      rw [ih [], modifyHead_nil_append]
      by_cases h : (jsTrim (cur ++ [c])).isEmpty
      · simp [h]
      · simp [h]
    · simp only [hterm, Bool.false_eq_true, if_false]
      rw [ih (cur ++ [c]), modifyHead_comp]
      have hfun : (fun x => cur ++ (c :: x)) = (fun x => (cur ++ [c]) ++ x) := by
        funext x
        simp
      rw [hfun]

/-- `splitBySentence` equals the spec-style segmentation. -/
lemma splitBySentence_eq_sbsSpec (text : List Char) :
    splitBySentence text = sbsSpec text := by
  unfold splitBySentence sbsSpec
  rw [sbsGo_eq, modifyHead_nil_append]

lemma jsTrim_eq_nil_of_allWS (cs : List Char) (h : ∀ c ∈ cs, isWS c) :
    jsTrim cs = [] := by
  unfold jsTrim
  have h1 : cs.dropWhile isWS = [] := List.dropWhile_eq_nil_iff.mpr h
  simp [h1]

lemma sbsGo_no_term (cs : List Char) (cur : List Char)
    (h : ∀ c ∈ cs, ¬ isTerm c) :
    sbsGo cs cur =
      if (jsTrim (cur ++ cs)).isEmpty then [] else [jsTrim (cur ++ cs)] := by
  induction cs generalizing cur with
  | nil => simp [sbsGo]
  | cons c cs ih =>
    have hc : ¬ isTerm c := h c (List.mem_cons_self c cs)
    simp only [sbsGo, hc, Bool.false_eq_true, if_false]
    rw [ih (cur ++ [c]) (fun x hx => h x (List.mem_cons_of_mem c hx))]
    simp

lemma sbsGo_all_ws (cs : List Char) (cur : List Char)
    (hcs : ∀ c ∈ cs, isWS c) (hcur : ∀ c ∈ cur, isWS c) :
    sbsGo cs cur = [] := by
  induction cs generalizing cur with
  | nil =>
    simp [sbsGo, jsTrim_eq_nil_of_allWS cur hcur]
  | cons c cs ih =>
    have hc : isWS c := hcs c (List.mem_cons_self c cs)
    have hcur' : ∀ x ∈ cur ++ [c], isWS x := by
      intro x hx
      rcases List.mem_append.mp hx with h1 | h1
      · exact hcur x h1
      · simp at h1
        subst h1
        exact hc
    have htail : ∀ x ∈ cs, isWS x := fun x hx => hcs x (List.mem_cons_of_mem c hx)
    simp only [sbsGo]
    by_cases hterm : isTerm c
    · simp [hterm, jsTrim_eq_nil_of_allWS (cur ++ [c]) hcur',
        ih [] htail (by intro x hx; simp at hx)]
    · simp only [hterm, Bool.false_eq_true, if_false]
      exact ih (cur ++ [c]) htail hcur'

/-- C7: `splitBySentence` closes a chunk exactly at sentence-terminal
characters (the full-width CJK terminators `。！？`, `!`, `?`, newline), a
plain period is not a terminator, trailing content after the last terminator
is emitted as a final chunk (the whole behaviour is the terminator-cut /
trim / drop-empty / raw-fallback pipeline `sbsSpec`); in particular
"Hello world. Version 2.0 is out" yields one chunk and "元気ですか？うん！"
yields exactly the chunks "元気ですか？" then "うん！". -/
theorem c7_splitBySentence_terminators :
    (∀ text, splitBySentence text = sbsSpec text) ∧
    isTerm '.' = false ∧
    (isTerm '。' ∧ isTerm '！' ∧ isTerm '？' ∧ isTerm '!' ∧ isTerm '?' ∧
      isTerm '\n') ∧
    splitBySentence ("Hello world. Version 2.0 is out".toList) =
      [("Hello world. Version 2.0 is out".toList)] ∧
    splitBySentence ("元気ですか？うん！".toList) =
      [("元気ですか？".toList), ("うん！".toList)] := by
  refine ⟨splitBySentence_eq_sbsSpec, by decide, by decide, by decide, by decide⟩

/-- C8: on terminator-free text, `splitBySentence` returns the whole trimmed
text as one chunk when the trim is non-empty; on empty or whitespace-only
input it returns the original raw text as the single chunk; the result is
never the empty list. -/
theorem c8_splitBySentence_fallback (text : List Char) :
    splitBySentence text ≠ [] ∧
    ((∀ c ∈ text, ¬ isTerm c) → jsTrim text ≠ [] →
      splitBySentence text = [jsTrim text]) ∧
    ((∀ c ∈ text, isWS c) → splitBySentence text = [text]) := by
  refine ⟨?_, ?_, ?_⟩
  · show (if (sbsGo text []).isEmpty then [text] else sbsGo text []) ≠ []
    by_cases h : (sbsGo text []).isEmpty
    · simp [h]
    · simp only [h, if_false, Bool.false_eq_true]
      intro hnil
      rw [hnil] at h
      simp at h
  · intro hterm htrim
    unfold splitBySentence
    rw [sbsGo_no_term text [] hterm]
    simp only [List.nil_append]
    have : (jsTrim text).isEmpty = false := by
      cases h : jsTrim text with
      | nil => exact absurd h htrim
      | cons a l => simp
    simp [this]
  · intro hws
    unfold splitBySentence
    rw [sbsGo_all_ws text [] hws (by intro x hx; exact absurd hx (List.not_mem_nil x))]
    simp

theorem c8_splitBySentence_fallback_witness :
    splitBySentence ("Hello, world".toList) = [("Hello, world".toList)] ∧
    splitBySentence (" \n ".toList) = [(" \n ".toList)] ∧
    splitBySentence [] ≠ [] := by
  refine ⟨?_, ?_, ?_⟩
  · have h := (c8_splitBySentence_fallback ("Hello, world".toList)).2.1
      (by decide) (by decide)
    rw [h]
    decide
  · exact (c8_splitBySentence_fallback (" \n ".toList)).2.2 (by decide)
  · exact (c8_splitBySentence_fallback []).1

/-! ## Event Stream Consumer (`sendMessage` read loop, app.js lines 419-502)

Bytes are `Nat` values; decoded text is a list of code points (`Nat`).
`decodeGreedy` models `TextDecoder.decode(value, {stream: true})`: it decodes
the maximal complete UTF-8 prefix and keeps an incomplete trailing sequence
as carry-over state. -/

namespace SSE

/-- Length of a UTF-8 sequence as determined by its leading byte. -/
def utf8Len (b : Nat) : Nat :=
  if b < 0x80 then 1 else if b < 0xC0 then 1 else if b < 0xE0 then 2
  else if b < 0xF0 then 3 else if b < 0xF8 then 4 else 1

lemma utf8Len_pos (b : Nat) : 0 < utf8Len b := by
  unfold utf8Len
  repeat' split
  all_goals norm_num

/-- Code point of one complete UTF-8 sequence. -/
def cpOf : List Nat → Nat
  | [b] => b
  | [b, c1] => (b % 0x20) * 0x40 + c1 % 0x40
  | [b, c1, c2] => (b % 0x10) * 0x1000 + (c1 % 0x40) * 0x40 + c2 % 0x40
  | [b, c1, c2, c3] =>
    (b % 0x8) * 0x40000 + (c1 % 0x40) * 0x1000 + (c2 % 0x40) * 0x40 + c3 % 0x40
  | _ => 0xFFFD

/-- Greedy streaming decode: code points of the maximal complete prefix,
plus the incomplete trailing bytes. -/
def decodeGreedy : List Nat → List Nat × List Nat
  | [] => ([], [])
  | b :: rest =>
    if rest.length + 1 < utf8Len b then ([], b :: rest)
    else
      (cpOf ((b :: rest).take (utf8Len b)) ::
         (decodeGreedy ((b :: rest).drop (utf8Len b))).1,
       (decodeGreedy ((b :: rest).drop (utf8Len b))).2)
termination_by bs => bs.length
decreasing_by
  all_goals
    simp only [List.length_drop, List.length_cons]
    have := utf8Len_pos b
    omega

/-- A decoder carry is either empty or a single incomplete sequence. -/
lemma decodeGreedy_nil : decodeGreedy [] = ([], []) := by
  rw [decodeGreedy]

lemma decodeGreedy_short (b : Nat) (rest : List Nat)
    (hlt : rest.length + 1 < utf8Len b) :
    decodeGreedy (b :: rest) = ([], b :: rest) := by
  rw [decodeGreedy, if_pos hlt]

lemma decodeGreedy_long (b : Nat) (rest : List Nat)
    (hlt : ¬ rest.length + 1 < utf8Len b) :
    decodeGreedy (b :: rest) =
      (cpOf ((b :: rest).take (utf8Len b)) ::
         (decodeGreedy ((b :: rest).drop (utf8Len b))).1,
       (decodeGreedy ((b :: rest).drop (utf8Len b))).2) := by
  rw [decodeGreedy, if_neg hlt]

lemma decodeGreedy_of_incomplete (bs : List Nat)
    (h : bs = [] ∨ ∃ b rest, bs = b :: rest ∧ rest.length + 1 < utf8Len b) :
    decodeGreedy bs = ([], bs) := by
  rcases h with h | ⟨b, rest, rfl, hlt⟩
  · subst h
    exact decodeGreedy_nil
  · exact decodeGreedy_short b rest hlt

lemma decodeGreedy_snd_incomplete (bs : List Nat) :
    (decodeGreedy bs).2 = [] ∨
      ∃ b rest, (decodeGreedy bs).2 = b :: rest ∧ rest.length + 1 < utf8Len b := by
  induction bs using decodeGreedy.induct with
  | case1 => simp [decodeGreedy_nil]
  | case2 b rest hlt =>
    rw [decodeGreedy_short b rest hlt]
    exact Or.inr ⟨b, rest, rfl, hlt⟩
  | case3 b rest hlt ih =>
    rw [decodeGreedy_long b rest hlt]
    exact ih

/-- Re-decoding a decoder carry is the identity. -/
lemma decodeGreedy_rem (bs : List Nat) :
    decodeGreedy (decodeGreedy bs).2 = ([], (decodeGreedy bs).2) :=
  decodeGreedy_of_incomplete _ (decodeGreedy_snd_incomplete bs)

/-- Streaming decode is compositional: decoding `a ++ b` is decoding `a`,
then decoding the carry of `a` followed by `b`. -/
lemma decodeGreedy_append (a b : List Nat) :
    decodeGreedy (a ++ b) =
      ((decodeGreedy a).1 ++ (decodeGreedy ((decodeGreedy a).2 ++ b)).1,
        (decodeGreedy ((decodeGreedy a).2 ++ b)).2) := by
  induction a using decodeGreedy.induct with
  | case1 =>
    simp [decodeGreedy_nil]
  | case2 x xs hlt =>
    rw [decodeGreedy_short x xs hlt]
    simp
  | case3 x xs hlt ih =>
    have hn : utf8Len x ≤ xs.length + 1 := Nat.le_of_not_lt hlt
    have hlb : ¬ ((xs ++ b).length + 1 < utf8Len x) := by
      simp only [List.length_append]
      omega
    have htake : (x :: (xs ++ b)).take (utf8Len x) = (x :: xs).take (utf8Len x) := by
      rw [show x :: (xs ++ b) = (x :: xs) ++ b from rfl]
      exact List.take_append_of_le_length (by simpa using hn)
    have hdrop : (x :: (xs ++ b)).drop (utf8Len x) =
        (x :: xs).drop (utf8Len x) ++ b := by
      rw [show x :: (xs ++ b) = (x :: xs) ++ b from rfl]
      exact List.drop_append_of_le_length (by simpa using hn)
    have e1 : decodeGreedy ((x :: xs) ++ b) =
        (cpOf ((x :: xs).take (utf8Len x)) ::
           (decodeGreedy ((x :: xs).drop (utf8Len x) ++ b)).1,
         (decodeGreedy ((x :: xs).drop (utf8Len x) ++ b)).2) := by
      rw [List.cons_append, decodeGreedy_long x (xs ++ b) hlb, htake, hdrop]
    rw [e1, decodeGreedy_long x xs hlt, ih]
    simp

lemma modifyHead_nil_app {α : Type} (l : List (List α)) :
    l.modifyHead (([] : List α) ++ ·) = l := by
  cases l <;> simp [List.modifyHead]

lemma modifyHead_app_left {α : Type} (f : α → α) (l m : List α) (h : l ≠ []) :
    (l ++ m).modifyHead f = l.modifyHead f ++ m := by
  cases l with
  | nil => exact absurd rfl h
  | cons x xs => simp [List.modifyHead]

/-- The line reassembly of the read loop: `buffer.split('\n')` with the last
element popped back into the buffer — complete lines and the retained
unterminated fragment. -/
def splitNLp : List Nat → List (List Nat) × List Nat
  | [] => ([], [])
  | c :: cs =>
    if c = 10 then ([] :: (splitNLp cs).1, (splitNLp cs).2)
    else
      match (splitNLp cs).1, (splitNLp cs).2 with
      | [], r2 => ([], c :: r2)
      | l :: ls, r2 => ((c :: l) :: ls, r2)

/-- Line splitting is compositional across an append boundary: the fragment
of `a` is completed by the first line of `b`. -/
lemma splitNLp_append (a b : List Nat) :
    splitNLp (a ++ b) =
      (if (splitNLp b).1.isEmpty
        then ((splitNLp a).1, (splitNLp a).2 ++ (splitNLp b).2)
        else ((splitNLp a).1 ++ (splitNLp b).1.modifyHead ((splitNLp a).2 ++ ·),
              (splitNLp b).2)) := by
  rcases hb : splitNLp b with ⟨l2, r2⟩
  induction a with
  | nil =>
    cases l2 with
    | nil => simp [splitNLp, hb]
    | cons l ls => simp [splitNLp, hb, List.modifyHead]
  | cons c cs ih =>
    rcases hcs : splitNLp cs with ⟨r1, s1⟩
    rw [hcs] at ih
    by_cases hc : c = 10
    · subst hc
      cases l2 with
      | nil =>
        simp only [List.isEmpty_nil, if_true] at ih ⊢
        simp only [List.cons_append, splitNLp, List.append_eq, ih, hcs, if_true]
      | cons l ls =>
        simp only [List.isEmpty_cons, Bool.false_eq_true, if_false] at ih ⊢
        simp only [List.cons_append, splitNLp, List.append_eq, ih, hcs, if_true, List.cons_append]
    · cases l2 with
      | nil =>
        simp only [List.isEmpty_nil, if_true] at ih ⊢
        cases r1 with
        | nil =>
          simp only [List.cons_append, splitNLp, List.append_eq, hc, if_false, ih, hcs]
        | cons l ls =>
          simp only [List.cons_append, splitNLp, List.append_eq, hc, if_false, ih, hcs]
      | cons l ls =>
        simp only [List.isEmpty_cons, Bool.false_eq_true, if_false] at ih ⊢
        cases r1 with
        | nil =>
          simp only [List.cons_append, splitNLp, List.append_eq, hc, if_false, ih, hcs,
            List.modifyHead, List.nil_append]
        | cons l' ls' =>
          simp only [List.cons_append, splitNLp, List.append_eq, hc, if_false, ih, hcs,
            List.modifyHead, List.cons_append]

/-- The retained fragment contains no newline: re-splitting it yields no
complete line. -/
lemma splitNLp_snd (s : List Nat) :
    splitNLp (splitNLp s).2 = ([], (splitNLp s).2) := by
  induction s with
  | nil => simp [splitNLp]
  | cons c cs ih =>
    by_cases hc : c = 10
    · subst hc
      simp only [splitNLp, if_true]
      exact ih
    · rcases hcs : splitNLp cs with ⟨r1, s1⟩
      rw [hcs] at ih
      cases r1 with
      | nil =>
        simp only [splitNLp, hc, if_false, hcs]
        simp only [splitNLp, hc, if_false, ih]
      | cons l ls =>
        simp only [splitNLp, hc, if_false, hcs]
        exact ih

/-- Splitting `x ++ y` is splitting `x`, then splitting its fragment
prepended to `y`. -/
lemma splitNLp_assoc (x y : List Nat) :
    (splitNLp (x ++ y)).1 =
        (splitNLp x).1 ++ (splitNLp ((splitNLp x).2 ++ y)).1 ∧
      (splitNLp (x ++ y)).2 = (splitNLp ((splitNLp x).2 ++ y)).2 := by
  have h1 := splitNLp_append x y
  have h2 := splitNLp_append ((splitNLp x).2) y
  rw [splitNLp_snd] at h2
  cases hy : (splitNLp y).1 with
  | nil =>
    rw [hy] at h1 h2
    simp only [List.isEmpty_nil, if_true] at h1 h2
    rw [h1, h2]
    simp
  | cons l ls =>
    rw [hy] at h1 h2
    simp only [List.isEmpty_cons, Bool.false_eq_true, if_false] at h1 h2
    rw [h1, h2]
    simp

/-! Protocol layer: `event: ` / `data: ` line dispatch (app.js 432-501). -/

/-- JS whitespace on code points, for `String.prototype.trim`. -/
def isWSN (n : Nat) : Bool :=
  n = 0x20 || n = 0x9 || n = 0xA || n = 0xB || n = 0xC || n = 0xD ||
  n = 0xA0 || n = 0x1680 || (0x2000 ≤ n && n ≤ 0x200A) || n = 0x2028 ||
  n = 0x2029 || n = 0x202F || n = 0x205F || n = 0x3000 || n = 0xFEFF

/-- `trim()` on code points. -/
def trimN (l : List Nat) : List Nat :=
  ((l.dropWhile isWSN).reverse.dropWhile isWSN).reverse

/-- `line.startsWith(tag)` on code points. -/
def startsTag : List Nat → List Nat → Bool
  | [], _ => true
  | _ :: _, [] => false
  | p :: ps, c :: cs => p == c && startsTag ps cs

/-- Code points of `"event: "`. -/
def evTag : List Nat := [101, 118, 101, 110, 116, 58, 32]

/-- Code points of `"data: "`. -/
def dataTag : List Nat := [100, 97, 116, 97, 58, 32]

/-- Code points of the default event type `"message"`. -/
def msgType : List Nat := [109, 101, 115, 115, 97, 103, 101]

/-- Processing of one complete line (app.js 433-501): an `event: ` line sets
the current event type to the trimmed remainder; a `data: ` line emits the
pair (current event type, raw payload) and resets the type to `message`;
every other line is ignored. -/
def procLine (cur line : List Nat) : List Nat × Option (List Nat × List Nat) :=
  if startsTag evTag line then (trimN (line.drop 7), none)
  else if startsTag dataTag line then (msgType, some (cur, line.drop 6))
  else (cur, none)

/-- Processing of a list of complete lines, threading the current event type
and collecting the emitted (type, payload) pairs in order. -/
def procLines (cur : List Nat) : List (List Nat) → List Nat × List (List Nat × List Nat)
  | [] => (cur, [])
  | l :: ls =>
    ((procLines (procLine cur l).1 ls).1,
      (match (procLine cur l).2 with
        | some p => [p]
        | none => []) ++ (procLines (procLine cur l).1 ls).2)

lemma procLines_append (cur : List Nat) (xs ys : List (List Nat)) :
    procLines cur (xs ++ ys) =
      ((procLines (procLines cur xs).1 ys).1,
        (procLines cur xs).2 ++ (procLines (procLines cur xs).1 ys).2) := by
  induction xs generalizing cur with
  | nil => simp [procLines]
  | cons l ls ih =>
    simp only [List.cons_append, procLines, ih]
    simp [ih, List.append_assoc]

/-- Consumer state across `reader.read()` iterations: decoder carry-over,
partial-line buffer, current event type. -/
structure CState where
  pending : List Nat
  buf : List Nat
  cur : List Nat

/-- One iteration of the read loop (app.js 425-502): decode the chunk with
carry, reassemble complete lines keeping the trailing fragment, process the
complete lines. -/
def feedChunk (st : CState) (bytes : List Nat) : CState × List (List Nat × List Nat) :=
  (⟨(decodeGreedy (st.pending ++ bytes)).2,
    (splitNLp (st.buf ++ (decodeGreedy (st.pending ++ bytes)).1)).2,
    (procLines st.cur (splitNLp (st.buf ++ (decodeGreedy (st.pending ++ bytes)).1)).1).1⟩,
   (procLines st.cur (splitNLp (st.buf ++ (decodeGreedy (st.pending ++ bytes)).1)).1).2)

/-- The whole read loop over a list of received chunks. -/
def runFrom (st : CState) : List (List Nat) → CState × List (List Nat × List Nat)
  | [] => (st, [])
  | c :: cs =>
    ((runFrom (feedChunk st c).1 cs).1,
     (feedChunk st c).2 ++ (runFrom (feedChunk st c).1 cs).2)

/-- Initial consumer state: `buffer = ''`, `currentEvent = 'message'`. -/
def initCState : CState := ⟨[], [], msgType⟩

/-- The (event type, payload) pairs the consumer delivers for a chunking. -/
def runConsumer (chunks : List (List Nat)) : List (List Nat × List Nat) :=
  (runFrom initCState chunks).2

/-- Reference behaviour: the pairs obtained when the whole stream is decoded
at once and every complete line is delivered whole. -/
def specEvents (bs : List Nat) : List (List Nat × List Nat) :=
  (procLines msgType (splitNLp (decodeGreedy bs).1).1).2

/-- The closed form of a full consumer run from an arbitrary state. -/
def consumeAll (pending buf cur bs : List Nat) : CState × List (List Nat × List Nat) :=
  (⟨(decodeGreedy (pending ++ bs)).2,
    (splitNLp (buf ++ (decodeGreedy (pending ++ bs)).1)).2,
    (procLines cur (splitNLp (buf ++ (decodeGreedy (pending ++ bs)).1)).1).1⟩,
   (procLines cur (splitNLp (buf ++ (decodeGreedy (pending ++ bs)).1)).1).2)

lemma consumeAll_step (P B U c J : List Nat) :
    consumeAll P B U (c ++ J) =
      ((consumeAll (decodeGreedy (P ++ c)).2
          (splitNLp (B ++ (decodeGreedy (P ++ c)).1)).2
          (procLines U (splitNLp (B ++ (decodeGreedy (P ++ c)).1)).1).1 J).1,
        (procLines U (splitNLp (B ++ (decodeGreedy (P ++ c)).1)).1).2 ++
          (consumeAll (decodeGreedy (P ++ c)).2
            (splitNLp (B ++ (decodeGreedy (P ++ c)).1)).2
            (procLines U (splitNLp (B ++ (decodeGreedy (P ++ c)).1)).1).1 J).2) := by
  have hdec : decodeGreedy (P ++ (c ++ J)) =
      ((decodeGreedy (P ++ c)).1 ++
         (decodeGreedy ((decodeGreedy (P ++ c)).2 ++ J)).1,
       (decodeGreedy ((decodeGreedy (P ++ c)).2 ++ J)).2) := by
    rw [← List.append_assoc]
    exact decodeGreedy_append (P ++ c) J
  unfold consumeAll
  rw [hdec]
  have hsp := splitNLp_assoc (B ++ (decodeGreedy (P ++ c)).1)
    ((decodeGreedy ((decodeGreedy (P ++ c)).2 ++ J)).1)
  rw [← List.append_assoc] at *
  rw [hsp.1, hsp.2]
  rw [procLines_append]

/-- A full consumer run from a state with idempotent carries has the closed
form. -/
lemma runFrom_eq (chunks : List (List Nat)) (st : CState)
    (hp : decodeGreedy st.pending = ([], st.pending))
    (hb : splitNLp st.buf = ([], st.buf)) :
    runFrom st chunks = consumeAll st.pending st.buf st.cur chunks.flatten := by
  induction chunks generalizing st with
  | nil =>
    simp only [runFrom, List.flatten_nil, consumeAll, List.append_nil, hp]
    simp only [List.append_nil, hb, procLines]
  | cons c cs ih =>
    have hfeed : feedChunk st c = consumeAll st.pending st.buf st.cur c := rfl
    have hnext := ih (feedChunk st c).1 (by exact decodeGreedy_rem _)
      (by exact splitNLp_snd _)
    simp only [runFrom, hnext]
    rw [List.flatten_cons, consumeAll_step]
    rfl

/-- UTF-8 continuation byte. -/
def isCont (n : Nat) : Bool := 0x80 ≤ n && n < 0xC0

/-- Well-formed UTF-8 byte sequence (leading bytes with the right number of
continuation bytes). -/
def validUTF8 : List Nat → Bool
  | [] => true
  | b :: rest =>
    if b < 0x80 then validUTF8 rest
    else if b < 0xC2 then false
    else if b < 0xE0 then
      match rest with
      | c1 :: rest2 => isCont c1 && validUTF8 rest2
      | [] => false
    else if b < 0xF0 then
      match rest with
      | c1 :: c2 :: rest2 => isCont c1 && isCont c2 && validUTF8 rest2
      | _ => false
    else if b < 0xF5 then
      match rest with
      | c1 :: c2 :: c3 :: rest2 =>
        isCont c1 && isCont c2 && isCont c3 && validUTF8 rest2
      | _ => false
    else false

/-- C5: for every valid event stream and every way of splitting its bytes
into read chunks — including splits mid-line and mid-multibyte character —
the consumer delivers the same ordered (event type, payload) pairs as when
the whole stream is decoded and processed as complete lines; in particular
any two chunkings of the same byte stream dispatch identically, the
unterminated trailing fragment being carried across reads. -/
theorem c5_consumer_chunking_invariant (chunks : List (List Nat))
    (hvalid : validUTF8 chunks.flatten = true) :
    runConsumer chunks = specEvents chunks.flatten ∧
    (∀ chunks2 : List (List Nat), chunks2.flatten = chunks.flatten →
      runConsumer chunks2 = runConsumer chunks) := by
  have key : ∀ ch : List (List Nat), runConsumer ch = specEvents ch.flatten := by
    intro ch
    unfold runConsumer specEvents
    rw [runFrom_eq ch initCState (by exact decodeGreedy_nil) (by rfl)]
    rfl
  refine ⟨key chunks, ?_⟩
  intro chunks2 hflat
  rw [key chunks2, key chunks, hflat]

theorem c5_consumer_chunking_invariant_witness :
    validUTF8 ([[101, 118, 101],
      [110, 116, 58, 32, 116, 111, 107, 101, 110, 10, 100, 97, 116, 97, 58, 32, 227],
      [129, 130, 10]].flatten) = true ∧
    runConsumer [[101, 118, 101],
      [110, 116, 58, 32, 116, 111, 107, 101, 110, 10, 100, 97, 116, 97, 58, 32, 227],
      [129, 130, 10]] = [([116, 111, 107, 101, 110], [12354])] ∧
    runConsumer [[101, 118, 101],
      [110, 116, 58, 32, 116, 111, 107, 101, 110, 10, 100, 97, 116, 97, 58, 32, 227],
      [129, 130, 10]] =
      runConsumer [[101, 118, 101, 110, 116, 58, 32, 116, 111, 107, 101, 110, 10],
        [100, 97, 116, 97, 58, 32, 227, 129, 130, 10]] := by
  have h := c5_consumer_chunking_invariant [[101, 118, 101],
      [110, 116, 58, 32, 116, 111, 107, 101, 110, 10, 100, 97, 116, 97, 58, 32, 227],
      [129, 130, 10]] (by decide)
  refine ⟨by decide, ?_, (h.2 _ (by decide)).symm⟩
  rw [h.1]
  simp [specEvents, decodeGreedy, utf8Len, cpOf, splitNLp, procLines, procLine,
    startsTag, evTag, dataTag, msgType, trimN, isWSN]

lemma data_line_not_event (line : List Nat)
    (h : startsTag dataTag line = true) : startsTag evTag line = false := by
  cases line with
  | nil => simp [startsTag, dataTag] at h
  | cons c cs =>
    simp only [dataTag, startsTag, Bool.and_eq_true, beq_iff_eq] at h
    rcases h with ⟨hc, h2⟩
    subst hc
    simp [startsTag, evTag]

/-- C10: a line that starts with neither `event: ` nor `data: ` (empty
lines, comment lines, `event:`-without-space lines) is ignored: the current
event type and all other state are unchanged and nothing is dispatched; a
previously seen event type therefore still applies to the next data line;
the current event type is reset to the sentinel `message` exactly by the
processing of a data line. -/
theorem c10_non_protocol_lines_ignored (cur line : List Nat) :
    (startsTag evTag line = false → startsTag dataTag line = false →
      procLine cur line = (cur, none)) ∧
    (startsTag dataTag line = true →
      procLine cur line = (msgType, some (cur, line.drop 6))) := by
  constructor
  · intro h1 h2
    simp [procLine, h1, h2]
  · intro h
    simp [procLine, data_line_not_event line h, h]

theorem c10_non_protocol_lines_ignored_witness :
    procLine [116, 111, 107, 101, 110] [] = ([116, 111, 107, 101, 110], none) ∧
    procLine [116, 111, 107, 101, 110] [58, 32, 120] =
      ([116, 111, 107, 101, 110], none) ∧
    procLine [116, 111, 107, 101, 110] [101, 118, 101, 110, 116, 58, 120] =
      ([116, 111, 107, 101, 110], none) ∧
    procLine [116, 111, 107, 101, 110] [100, 97, 116, 97, 58, 32, 55] =
      (msgType, some ([116, 111, 107, 101, 110], [55])) :=
  ⟨(c10_non_protocol_lines_ignored _ _).1 (by decide) (by decide),
   (c10_non_protocol_lines_ignored _ _).1 (by decide) (by decide),
   (c10_non_protocol_lines_ignored _ _).1 (by decide) (by decide),
   (c10_non_protocol_lines_ignored _ _).2 (by decide)⟩

end SSE

/-! ## Streaming Response Assembler (`sendMessage`, app.js lines 399-532) -/

namespace Asm

/-- Content of the in-progress message body element. -/
inductive Body
  | empty
  | rendered (s : List Char)
  | errorInd (s : List Char)
deriving DecidableEq, Repr

/-- Events as seen by the assembler; tool, confirmation and retry events do
not touch the assembler's state and are collapsed into `other`. -/
inductive Ev
  | token (s : List Char)
  | done
  | error (s : List Char)
  | other
deriving DecidableEq, Repr

/-- Assembler state: whether `streamBody` is non-null, its content, the
accumulated `rawText`, whether the `streaming-msg` id is still present,
whether the `streaming-cursor` class is present, whether the header already
holds a TTS button, and the list of narration texts handed to `playTTS`. -/
structure AsmState where
  bodyExists : Bool
  body : Body
  raw : List Char
  hasId : Bool
  cursor : Bool
  ttsBtn : Bool
  narrations : List (List Char)
deriving DecidableEq, Repr

/-- `createStreamingMessage()` (app.js 305-328): a fresh in-progress message
carrying the `streaming-msg` id and the `streaming-cursor` class. -/
def createStreaming (st : AsmState) : AsmState :=
  { st with bodyExists := true, hasId := true, cursor := true, body := Body.empty }

/-- One dispatched event of the assembler (app.js 449-497). -/
def stepEv (st : AsmState) (e : Ev) : AsmState :=
  match e with
  | .token s =>
    let st1 := if st.bodyExists then st else createStreaming st
    { st1 with raw := st1.raw ++ s, body := Body.rendered (st1.raw ++ s) }
  | .done =>
    let st1 := if st.bodyExists then { st with cursor := false } else st
    let st2 :=
      if st1.hasId then
        (if st1.raw.isEmpty then { st1 with hasId := false }
         else { st1 with hasId := false, ttsBtn := true,
                         narrations := st1.narrations ++ [st1.raw] })
      else st1
    if st2.bodyExists then { st2 with body := Body.rendered st2.raw } else st2
  | .error s =>
    let st1 := if st.bodyExists then st else createStreaming st
    { st1 with body := Body.errorInd s, cursor := false }
  | .other => st

/-- The `catch` of the whole stream loop (app.js 504-509). -/
def applyCatch (st : AsmState) (msg : List Char) : AsmState :=
  let st1 := if st.bodyExists then st else createStreaming st
  { st1 with body := Body.errorInd msg, cursor := false }

/-- The fallback finalizer after the loop (app.js 511-522). -/
def applyFallback (st : AsmState) : AsmState :=
  if st.hasId && !st.raw.isEmpty then
    let st1 := { st with hasId := false }
    let st2 := if st1.bodyExists then { st1 with cursor := false } else st1
    if st2.ttsBtn then st2
    else { st2 with ttsBtn := true, narrations := st2.narrations ++ [st2.raw] }
  else st

/-- State at the start of a turn. -/
def initAsm : AsmState := ⟨false, Body.empty, [], false, false, false, []⟩

/-- Processing of the dispatched events in order. -/
def runEvents (st : AsmState) : List Ev → AsmState
  | [] => st
  | e :: es => runEvents (stepEv st e) es

/-- A whole turn: the processed events, the optional transport error, then
the unconditional fallback finalizer. -/
def runTurn (evs : List Ev) (transportErr : Bool) (errMsg : List Char) : AsmState :=
  applyFallback
    (if transportErr then applyCatch (runEvents initAsm evs) errMsg
     else runEvents initAsm evs)

/-- Concatenation of all token payloads, i.e. the final `rawText`. -/
def tokensText : List Ev → List Char
  | [] => []
  | Ev.token s :: es => s ++ tokensText es
  | _ :: es => tokensText es

lemma runEvents_raw (evs : List Ev) (st : AsmState) :
    (runEvents st evs).raw = st.raw ++ tokensText evs := by
  induction evs generalizing st with
  | nil => simp [runEvents, tokensText]
  | cons e es ih =>
    cases e with
    | token s =>
      simp only [runEvents, ih, stepEv, tokensText]
      by_cases h : st.bodyExists <;> simp [h, createStreaming, List.append_assoc]
    | done =>
      simp only [runEvents, ih, stepEv, tokensText]
      by_cases h1 : st.bodyExists <;> by_cases h2 : st.hasId <;>
        by_cases h3 : st.raw.isEmpty <;> simp_all
    | error s =>
      simp only [runEvents, ih, stepEv, tokensText]
      by_cases h : st.bodyExists <;> simp [h, createStreaming]
    | other => simp [runEvents, ih, stepEv, tokensText]

lemma runEvents_no_done (evs : List Ev) (st : AsmState)
    (hdone : Ev.done ∉ evs) :
    (runEvents st evs).narrations = st.narrations ∧
      (runEvents st evs).ttsBtn = st.ttsBtn := by
  induction evs generalizing st with
  | nil => simp [runEvents]
  | cons e es ih =>
    have hd : e ≠ Ev.done := fun h => hdone (h ▸ List.mem_cons_self e es)
    have hdes : Ev.done ∉ es := fun h => hdone (List.mem_cons_of_mem e h)
    cases e with
    | token s =>
      rw [runEvents]
      rcases ih (stepEv st (Ev.token s)) hdes with ⟨h1, h2⟩
      rw [h1, h2]
      by_cases h : st.bodyExists <;> simp [stepEv, h, createStreaming]
    | done => exact absurd rfl hd
    | error s =>
      rw [runEvents]
      rcases ih (stepEv st (Ev.error s)) hdes with ⟨h1, h2⟩
      rw [h1, h2]
      by_cases h : st.bodyExists <;> simp [stepEv, h, createStreaming]
    | other =>
      rw [runEvents]
      exact ih st hdes

lemma runEvents_id_eq_body (evs : List Ev) (st : AsmState)
    (hdone : Ev.done ∉ evs) (hst : st.hasId = st.bodyExists) :
    (runEvents st evs).hasId = (runEvents st evs).bodyExists := by
  induction evs generalizing st with
  | nil => simpa [runEvents] using hst
  | cons e es ih =>
    have hd : e ≠ Ev.done := fun h => hdone (h ▸ List.mem_cons_self e es)
    have hdes : Ev.done ∉ es := fun h => hdone (List.mem_cons_of_mem e h)
    cases e with
    | token s =>
      rw [runEvents]
      refine ih _ hdes ?_
      by_cases h : st.bodyExists <;> simp [stepEv, h, createStreaming, hst]
    | done => exact absurd rfl hd
    | error s =>
      rw [runEvents]
      refine ih _ hdes ?_
      by_cases h : st.bodyExists <;> simp [stepEv, h, createStreaming, hst]
    | other =>
      rw [runEvents]
      exact ih st hdes hst

lemma stepEv_body_mono (st : AsmState) (e : Ev)
    (h : st.bodyExists = true) : (stepEv st e).bodyExists = true := by
  cases e with
  | token s => simp [stepEv, h]
  | done =>
    by_cases h2 : st.hasId <;> by_cases h3 : st.raw.isEmpty <;>
      simp_all [stepEv]
  | error s => simp [stepEv, h]
  | other => simpa [stepEv] using h

lemma runEvents_body_mono (evs : List Ev) (st : AsmState)
    (h : st.bodyExists = true) : (runEvents st evs).bodyExists = true := by
  induction evs generalizing st with
  | nil => simpa [runEvents] using h
  | cons e es ih =>
    rw [runEvents]
    exact ih _ (stepEv_body_mono st e h)

lemma runEvents_body_of_token (evs : List Ev) (st : AsmState)
    (htok : ∃ s, Ev.token s ∈ evs) :
    (runEvents st evs).bodyExists = true := by
  induction evs generalizing st with
  | nil => simp at htok
  | cons e es ih =>
    rcases htok with ⟨s, hs⟩
    rcases List.mem_cons.mp hs with h | h
    · subst h
      rw [runEvents]
      refine runEvents_body_mono es _ ?_
      by_cases hb : st.bodyExists <;> simp [stepEv, hb, createStreaming]
    · rw [runEvents]
      exact ih _ ⟨s, h⟩

lemma tokensText_ne_nil (evs : List Ev) (s : List Char)
    (hs : Ev.token s ∈ evs) (hne : s ≠ []) : tokensText evs ≠ [] := by
  induction evs with
  | nil => simp at hs
  | cons e es ih =>
    rcases List.mem_cons.mp hs with h | h
    · subst h
      simp only [tokensText]
      intro hcontra
      exact hne (List.append_eq_nil.mp hcontra).1
    · cases e with
      | token s2 =>
        simp only [tokensText]
        intro hcontra
        exact ih h (List.append_eq_nil.mp hcontra).2
      | done => exact ih h
      | error s2 => exact ih h
      | other => exact ih h

lemma runEvents_id_false (evs : List Ev) (st : AsmState)
    (h1 : st.hasId = false) (h2 : st.bodyExists = true) :
    (runEvents st evs).hasId = false ∧ (runEvents st evs).bodyExists = true := by
  induction evs generalizing st with
  | nil => simpa [runEvents] using ⟨h1, h2⟩
  | cons e es ih =>
    rw [runEvents]
    refine ih _ ?_ (stepEv_body_mono st e h2)
    cases e with
    | token s => simp [stepEv, h1, h2]
    | done => simp [stepEv, h1, h2]
    | error s => simp [stepEv, h1, h2]
    | other => simpa [stepEv] using h1

/-- Narration-count invariant: the TTS button flag and the narration list
move in lockstep, and at most one narration is ever started. -/
def Jinv (st : AsmState) : Prop :=
  (st.hasId = true → st.bodyExists = true) ∧
  ((st.narrations = [] ∧ st.ttsBtn = false) ∨
   (∃ t, st.narrations = [t] ∧ st.hasId = false ∧ st.ttsBtn = true ∧
     st.bodyExists = true))

lemma Jinv_init : Jinv initAsm := by
  constructor
  · intro h
    simp [initAsm] at h
  · exact Or.inl (by simp [initAsm])

lemma Jinv_step (st : AsmState) (e : Ev) (h : Jinv st) : Jinv (stepEv st e) := by
  obtain ⟨hib, hdisj⟩ := h
  cases e with
  | token s =>
    by_cases hb : st.bodyExists
    · constructor
      · intro _
        simp [stepEv, hb]
      · rcases hdisj with ⟨hn, ht⟩ | ⟨t, hn, hid, ht, hbe⟩
        · exact Or.inl (by simp [stepEv, hb, hn, ht])
        · exact Or.inr ⟨t, by simp [stepEv, hb, hn, hid, ht, hbe]⟩
    · constructor
      · intro _
        simp [stepEv, hb, createStreaming]
      · rcases hdisj with ⟨hn, ht⟩ | ⟨t, hn, hid, ht, hbe⟩
        · exact Or.inl (by simp [stepEv, hb, createStreaming, hn, ht])
        · exact absurd hbe (by simpa using hb)
  | error s =>
    by_cases hb : st.bodyExists
    · constructor
      · intro _
        simp [stepEv, hb]
      · rcases hdisj with ⟨hn, ht⟩ | ⟨t, hn, hid, ht, hbe⟩
        · exact Or.inl (by simp [stepEv, hb, hn, ht])
        · exact Or.inr ⟨t, by simp [stepEv, hb, hn, hid, ht, hbe]⟩
    · constructor
      · intro _
        simp [stepEv, hb, createStreaming]
      · rcases hdisj with ⟨hn, ht⟩ | ⟨t, hn, hid, ht, hbe⟩
        · exact Or.inl (by simp [stepEv, hb, createStreaming, hn, ht])
        · exact absurd hbe (by simpa using hb)
  | other => exact ⟨hib, hdisj⟩
  | done =>
    by_cases hid : st.hasId
    · have hb : st.bodyExists = true := hib hid
      rcases hdisj with ⟨hn, ht⟩ | ⟨t, hn, hid2, ht, hbe⟩
      · by_cases hr : st.raw.isEmpty
        · constructor
          · intro _
            simp [stepEv, hb, hid, hr]
          · exact Or.inl (by simp [stepEv, hb, hid, hr, hn, ht])
        · constructor
          · intro _
            simp [stepEv, hb, hid, hr]
          · exact Or.inr ⟨st.raw, by simp [stepEv, hb, hid, hr, hn, ht]⟩
      · rw [hid2] at hid
        simp at hid
    · constructor
      · intro hcontra
        by_cases hb : st.bodyExists <;> simp [stepEv, hb, hid] at hcontra ⊢ <;>
          simp [hib, hcontra, hb]
      · rcases hdisj with ⟨hn, ht⟩ | ⟨t, hn, hid2, ht, hbe⟩
        · exact Or.inl (by by_cases hb : st.bodyExists <;> simp [stepEv, hb, hid, hn, ht])
        · exact Or.inr ⟨t, by simp [stepEv, hbe, hid, hn, hid2, ht]⟩

lemma Jinv_run (evs : List Ev) (st : AsmState) (h : Jinv st) :
    Jinv (runEvents st evs) := by
  induction evs generalizing st with
  | nil => simpa [runEvents] using h
  | cons e es ih =>
    rw [runEvents]
    exact ih _ (Jinv_step st e h)

lemma Jinv_catch (st : AsmState) (msg : List Char) (h : Jinv st) :
    Jinv (applyCatch st msg) := by
  obtain ⟨hib, hdisj⟩ := h
  by_cases hb : st.bodyExists
  · constructor
    · intro _
      simp [applyCatch, hb]
    · rcases hdisj with ⟨hn, ht⟩ | ⟨t, hn, hid, ht, hbe⟩
      · exact Or.inl (by simp [applyCatch, hb, hn, ht])
      · exact Or.inr ⟨t, by simp [applyCatch, hb, hn, hid, ht, hbe]⟩
  · constructor
    · intro _
      simp [applyCatch, hb, createStreaming]
    · rcases hdisj with ⟨hn, ht⟩ | ⟨t, hn, hid, ht, hbe⟩
      · exact Or.inl (by simp [applyCatch, hb, createStreaming, hn, ht])
      · exact absurd hbe (by simpa using hb)

lemma Jinv_fallback_len (st : AsmState) (h : Jinv st) :
    (applyFallback st).narrations.length ≤ 1 := by
  obtain ⟨hib, hdisj⟩ := h
  by_cases hc : st.hasId && !st.raw.isEmpty
  · rcases hdisj with ⟨hn, ht⟩ | ⟨t, hn, hid, ht, hbe⟩
    · by_cases hb : st.bodyExists <;> simp [applyFallback, hc, hb, hn, ht]
    · simp only [Bool.and_eq_true] at hc
      rw [hid] at hc
      simp at hc
  · rcases hdisj with ⟨hn, ht⟩ | ⟨t, hn, hid, ht, hbe⟩ <;>
      simp [applyFallback, hc, hn]

/-- C9: on an `error` event the assembler replaces the in-progress body with
the inline error indicator and removes the cursor, while the accumulated
response text `rawText` is preserved unchanged. -/
theorem c9_error_event_replaces_body (st : AsmState) (s : List Char) :
    (stepEv st (Ev.error s)).body = Body.errorInd s ∧
    (stepEv st (Ev.error s)).raw = st.raw ∧
    (stepEv st (Ev.error s)).cursor = false := by
  by_cases h : st.bodyExists <;> simp [stepEv, createStreaming, h]

/-- C6 counterexample: a stream that emits one token event whose text is the
empty string and then closes without `done` is NOT finalized — the
`streaming-msg` id and the cursor survive and no narration starts — because
the fallback finalizer tests the truthiness of `rawText`. -/
theorem c6_empty_token_not_finalized :
    Ev.token [] ∈ [Ev.token ([] : List Char)] ∧
    Ev.done ∉ [Ev.token ([] : List Char)] ∧
    (runTurn [Ev.token []] false []).hasId = true ∧
    (runTurn [Ev.token []] false []).cursor = true ∧
    (runTurn [Ev.token []] false []).narrations = [] := by
  refine ⟨by decide, by decide, by decide, by decide, by decide⟩

/-- C6 (amended): for every turn stream that emits at least one token with
non-empty text and closes without a `done` event — normally, after an
`error` event, or through a transport error — the message is finalized
exactly once (id and cursor removed) and narration of the accumulated text
starts exactly once; the fallback finalizer is idempotent: on a state whose
id was already removed (as a processed `done` leaves it) it changes nothing,
and in every run at most one narration is started. -/
theorem c6_fallback_finalizer (evs : List Ev) (terr : Bool) (msg : List Char) :
    ((∃ s, Ev.token s ∈ evs ∧ s ≠ []) → Ev.done ∉ evs →
      (runTurn evs terr msg).hasId = false ∧
      (runTurn evs terr msg).cursor = false ∧
      (runTurn evs terr msg).narrations = [tokensText evs]) ∧
    (∀ st, st.hasId = false → applyFallback st = st) ∧
    (runTurn evs terr msg).narrations.length ≤ 1 ∧
    (∀ st, st.hasId = true → (stepEv st Ev.done).hasId = false) ∧
    (∀ evs2 st, st.hasId = false → st.bodyExists = true →
      (runEvents st evs2).hasId = false) := by
  refine ⟨?_, ?_, ?_, ?_, ?_⟩
  · intro htok hdone
    obtain ⟨s, hs, hsne⟩ := htok
    have hraw : (runEvents initAsm evs).raw = tokensText evs := by
      simpa [initAsm] using runEvents_raw evs initAsm
    have hnb := runEvents_no_done evs initAsm hdone
    have hbody : (runEvents initAsm evs).bodyExists = true :=
      runEvents_body_of_token evs initAsm ⟨s, hs⟩
    have hid : (runEvents initAsm evs).hasId = true := by
      have h := runEvents_id_eq_body evs initAsm hdone (by rfl)
      rw [hbody] at h
      exact h
    have hrne : (runEvents initAsm evs).raw ≠ [] := by
      rw [hraw]
      exact tokensText_ne_nil evs s hs hsne
    have hmid : ∀ st1, st1 = (if terr then applyCatch (runEvents initAsm evs) msg
        else runEvents initAsm evs) →
        st1.raw = tokensText evs ∧ st1.hasId = true ∧ st1.narrations = [] ∧
        st1.ttsBtn = false ∧ st1.bodyExists = true := by
      intro st1 hst1
      cases terr with
      | false =>
        simp only [if_false, Bool.false_eq_true] at hst1
        subst hst1
        exact ⟨hraw, hid, hnb.1.trans (by simp [initAsm]),
          hnb.2.trans (by simp [initAsm]), hbody⟩
      | true =>
        simp only [if_true] at hst1
        subst hst1
        simp only [applyCatch, hbody, if_true]
        refine ⟨hraw, hid, hnb.1.trans (by simp [initAsm]),
          hnb.2.trans (by simp [initAsm]), ?_⟩
        trivial
    obtain ⟨h1, h2, h3, h4, h5⟩ := hmid _ rfl
    have hrne2 : (if terr then applyCatch (runEvents initAsm evs) msg
        else runEvents initAsm evs).raw ≠ [] := by
      rw [h1]
      rw [hraw] at hrne
      exact hrne
    unfold runTurn
    rw [applyFallback]
    rw [h2]
    have hre : (if terr then applyCatch (runEvents initAsm evs) msg
        else runEvents initAsm evs).raw.isEmpty = false := by
      cases hcase : (if terr then applyCatch (runEvents initAsm evs) msg
          else runEvents initAsm evs).raw with
      | nil => exact absurd hcase hrne2
      | cons a l => simp
    rw [hre]
    simp only [Bool.not_false, Bool.and_self, if_true, h5, h3, h4, h1]
    simp
  · intro st h
    simp [applyFallback, h]
  · have hj : Jinv (if terr then applyCatch (runEvents initAsm evs) msg
        else runEvents initAsm evs) := by
      cases terr with
      | false => simpa using Jinv_run evs initAsm Jinv_init
      | true => simpa using Jinv_catch _ msg (Jinv_run evs initAsm Jinv_init)
    exact Jinv_fallback_len _ hj
  · intro st h
    by_cases hb : st.bodyExists <;> by_cases hr : st.raw.isEmpty <;>
      simp [stepEv, h, hb, hr]
  · intro evs2 st h1 h2
    exact (runEvents_id_false evs2 st h1 h2).1

theorem c6_fallback_finalizer_witness :
    (runTurn [Ev.token ['h', 'i']] false []).hasId = false ∧
    (runTurn [Ev.token ['h', 'i']] false []).cursor = false ∧
    (runTurn [Ev.token ['h', 'i']] false []).narrations = [['h', 'i']] ∧
    (runTurn [Ev.token ['h', 'i']] false []).narrations.length ≤ 1 := by
  have h := c6_fallback_finalizer [Ev.token ['h', 'i']] false []
  have h1 := h.1 ⟨['h', 'i'], by decide, by decide⟩ (by decide)
  refine ⟨h1.1, h1.2.1, ?_, h.2.2.1⟩
  rw [h1.2.2]
  decide

end Asm

/-! ## Narration pipeline (`playTTS` / `stopTTS`, app.js lines 142-259)

A small-step operational model. Each `playTTS` invocation is a coroutine
suspended at its `await` points (`await nextResp`, `await resp.blob()`, the
playback promise); the environment resolves one pending promise per step, or
injects a user action (`playTTS` on some button, `stopTTS`). The
synchronous prefix of `playTTS` — teardown of the previous invocation,
button setup, and the chunk-0 fetch — contains no `await` and is therefore a
single atomic step, exactly as in the single-threaded JS event loop.

`AbortController.abort()` runs the registered `abort` listeners
synchronously; each pauses its chunk's audio, revokes its object URL and
resolves its (possibly already resolved) playback promise. These
per-listener effects are disjoint (one distinct audio/URL per listener), so
the model applies them as one bulk update, with the trace keeping the
per-listener ordering. A resumed coroutine whose token is aborted only
breaks out of its loop with no observable action; the model collapses that
into the abort step. -/

namespace TTS

/-- Phase of a TTS affordance (the play/stop button of one message). -/
inductive BtnPhase
  | idle
  | loading
  | playing
deriving DecidableEq, Repr

/-- Suspension point of one `playTTS` invocation. -/
inductive PC
  | awaitFetch (i : Nat)
  | awaitBlob (i : Nat)
  | awaitPlay (i : Nat) (aid : Nat)
  | finished
deriving DecidableEq, Repr

/-- One `playTTS` invocation: its AbortController token, its button index,
its chunk count `(splitBySentence text).length`, and its suspension point. -/
structure Inv where
  tok : Nat
  btn : Nat
  n : Nat
  pc : PC
deriving DecidableEq, Repr

/-- Observable actions, recorded in program order. -/
inductive Act
  | sigAbort (t : Nat)
  | pauseAudio (a : Nat)
  | resetBtn (b : Nat)
  | setLoading (b : Nat)
  | setPlaying (b : Nat)
  | fetchIssue (iv i : Nat)
  | fetchOk (iv i : Nat)
  | fetchFail (iv i : Nat)
  | blobDone (iv i : Nat)
  | createUrl (iv i n : Nat)
  | playStart (iv i a : Nat)
  | revokeUrl (iv i : Nat)
  | errorReported (iv : Nat)
deriving DecidableEq, Repr

/-- Global state of the narration subsystem: all invocations ever started,
the set of aborted tokens, `_ttsAbort`, `currentAudio`, a fresh-audio
counter, the audios currently audible, the registered not-yet-fired abort
listeners `(token, invocation, chunk, audio)`, the chunk fetches started and
not yet fully consumed `(invocation, chunk)`, the button phases, the set of
revoked object URLs `(invocation, chunk)`, and the action trace. -/
structure Sys where
  invs : List Inv
  aborted : List Nat
  ttsAbort : Option Nat
  currentAudio : Option Nat
  nextAudio : Nat
  playing : List Nat
  listeners : List (Nat × Nat × Nat × Nat)
  inflight : List (Nat × Nat)
  btns : List BtnPhase
  revoked : List (Nat × Nat)
  trace : List Act
deriving DecidableEq, Repr

/-- Update the program counter of invocation `iv`. -/
def setPC (invs : List Inv) (iv : Nat) (pc : PC) : List Inv :=
  match invs[iv]? with
  | some inv => invs.set iv { inv with pc := pc }
  | none => invs

/-- `URL.revokeObjectURL`: marking an already revoked URL again is a no-op
on the store. -/
def insertRevoked (p : Nat × Nat) (l : List (Nat × Nat)) : List (Nat × Nat) :=
  if p ∈ l then l else l ++ [p]

def mapIdxGo (f : Nat → Inv → Inv) (k : Nat) : List Inv → List Inv
  | [] => []
  | x :: xs => f k x :: mapIdxGo f (k + 1) xs

def mapIdx (f : Nat → Inv → Inv) (l : List Inv) : List Inv := mapIdxGo f 0 l

/-- Trace entries of the reset loop of `stopTTS` (app.js 169-175): one
`resetBtn` per affordance in loading or playing state. -/
def resetActsGo (k : Nat) : List BtnPhase → List Act
  | [] => []
  | b :: bs =>
    (if b = BtnPhase.idle then [] else [Act.resetBtn k]) ++ resetActsGo (k + 1) bs

def resetActs (btns : List BtnPhase) : List Act := resetActsGo 0 btns

/-- Does a fired abort listener resolve this invocation's current playback
wait? -/
def matchesFired (fired : List (Nat × Nat × Nat × Nat)) (iv : Nat) (inv : Inv) : Bool :=
  fired.any (fun l => l.2.1 = iv &&
    (match inv.pc with
     | PC.awaitPlay i a => l.2.2.1 = i && l.2.2.2 = a
     | _ => false))

/-- `_ttsAbort.abort()`: signal token `t`, fire all its registered abort
listeners (pause audio, revoke URL, resolve the playback wait — the resumed
loop observes the aborted signal and ends), abandon the token's in-flight
fetches, drop the fired listeners. -/
def abortApply (s : Sys) (t : Nat) : Sys :=
  let fired := s.listeners.filter (fun l => l.1 = t)
  { s with
    aborted := t :: s.aborted,
    ttsAbort := none,
    listeners := s.listeners.filter (fun l => !(l.1 = t)),
    playing := s.playing.filter (fun x => !(fired.any (fun l => l.2.2.2 = x))),
    revoked := fired.foldl (fun r l => insertRevoked (l.2.1, l.2.2.1) r) s.revoked,
    invs := mapIdx (fun iv inv =>
      if matchesFired fired iv inv then { inv with pc := PC.finished } else inv) s.invs,
    inflight := s.inflight.filter
      (fun p => (s.invs[p.1]?).all (fun inv => !(inv.tok = t))),
    trace := s.trace ++ [Act.sigAbort t] ++
      fired.flatMap (fun l => [Act.pauseAudio l.2.2.2, Act.revokeUrl l.2.1 l.2.2.1]) }

/-- `currentAudio.pause()` and drop the reference (app.js 170-173). -/
def pauseCur (s : Sys) : Sys :=
  match s.currentAudio with
  | none => s
  | some a =>
    { s with playing := s.playing.filter (fun x => !(x = a)),
             currentAudio := none,
             trace := s.trace ++ [Act.pauseAudio a] }

/-- The reset loop over every affordance (app.js 174-175): each loading or
playing entry is reset to idle. -/
def resetBtns (s : Sys) : Sys :=
  { s with btns := s.btns.map (fun _ => BtnPhase.idle),
           trace := s.trace ++ resetActs s.btns }

/-- `stopTTS()` (app.js 166-176): abort the current token (if any), pause
and drop the current audio (if any), reset every loading/playing affordance
to idle. -/
def stopTTS (s : Sys) : Sys :=
  resetBtns (pauseCur (match s.ttsAbort with
    | none => s
    | some t => abortApply s t))

/-- The teardown actions `stopTTS` appends to the trace. -/
def stopSeg (s : Sys) : List Act :=
  (match s.ttsAbort with
   | none => []
   | some t =>
     Act.sigAbort t ::
       (s.listeners.filter (fun l => l.1 = t)).flatMap
         (fun l => [Act.pauseAudio l.2.2.2, Act.revokeUrl l.2.1 l.2.2.1])) ++
  (match s.currentAudio with
   | none => []
   | some a => [Act.pauseAudio a]) ++
  resetActs s.btns

/-- The synchronous prefix of `playTTS(text, btn)` (app.js 186-206): tear
down the previous narration, install a fresh token, flip the button to
loading, segment the text and issue the chunk-0 fetch, then suspend at
`await nextResp`. -/
def playStep (s : Sys) (b : Nat) (text : List Char) : Sys :=
  if b < s.btns.length then
    { stopTTS s with
      ttsAbort := some (stopTTS s).invs.length,
      btns := (stopTTS s).btns.set b BtnPhase.loading,
      invs := (stopTTS s).invs ++ [⟨(stopTTS s).invs.length, b,
        (splitBySentence text).length, PC.awaitFetch 0⟩],
      inflight := (stopTTS s).inflight ++ [((stopTTS s).invs.length, 0)],
      trace := (stopTTS s).trace ++
        [Act.setLoading b, Act.fetchIssue (stopTTS s).invs.length 0] }
  else s

/-- Resolution of the awaited chunk fetch (app.js 211-225): on an aborted
token the promise rejected and the catch is silent; on a non-OK response the
whole narration is aborted with an error and the button reset; on an OK
response the next chunk's fetch is issued immediately, then the body
download is awaited. -/
def fetchStep (s : Sys) (iv : Nat) (ok : Bool) : Sys :=
  match s.invs[iv]? with
  | none => s
  | some inv =>
    match inv.pc with
    | PC.awaitFetch i =>
      if s.aborted.contains inv.tok then
        { s with invs := setPC s.invs iv PC.finished }
      else if ok then
        let s1 := { s with trace := s.trace ++ [Act.fetchOk iv i],
                           invs := setPC s.invs iv (PC.awaitBlob i) }
        if i + 1 < inv.n then
          { s1 with inflight := s1.inflight ++ [(iv, i + 1)],
                    trace := s1.trace ++ [Act.fetchIssue iv (i + 1)] }
        else s1
      else
        { s with invs := setPC s.invs iv PC.finished,
                 inflight := s.inflight.filter (fun p => !(p = (iv, i))),
                 btns := s.btns.set inv.btn BtnPhase.idle,
                 trace := s.trace ++ [Act.fetchFail iv i, Act.errorReported iv,
                   Act.resetBtn inv.btn] }
    | _ => s

/-- Resolution of `await resp.blob()` plus the synchronous playback setup
(app.js 227-248): if the token was aborted the loop breaks silently;
otherwise create the object URL and audio, make it current, flip the button
to playing on chunk 0, register the abort listener, call `play()`. -/
def blobStep (s : Sys) (iv : Nat) : Sys :=
  match s.invs[iv]? with
  | none => s
  | some inv =>
    match inv.pc with
    | PC.awaitBlob i =>
      if s.aborted.contains inv.tok then
        { s with invs := setPC s.invs iv PC.finished }
      else
        let aid := s.nextAudio
        let s1 :=
          { s with
            inflight := s.inflight.filter (fun p => !(p = (iv, i))),
            currentAudio := some aid,
            nextAudio := s.nextAudio + 1,
            trace := s.trace ++ [Act.blobDone iv i, Act.createUrl iv i inv.n] }
        let s2 :=
          if i = 0 then
            { s1 with btns := s1.btns.set inv.btn BtnPhase.playing,
                      trace := s1.trace ++ [Act.setPlaying inv.btn] }
          else s1
        { s2 with
          listeners := s2.listeners ++ [(inv.tok, iv, i, aid)],
          playing := s2.playing ++ [aid],
          invs := setPC s2.invs iv (PC.awaitPlay i aid),
          trace := s2.trace ++ [Act.playStart iv i aid] }
    | _ => s

/-- How a playback wait ends when it is not cancelled. -/
inductive POut
  | ended
  | decodeError
  | playRejected
deriving DecidableEq, Repr

/-- Resolution of the playback promise (app.js 243-248) — natural end,
decode/playback error, and rejected `play()` run the same handler: revoke
the URL and resolve — followed by the next loop iteration or the loop exit
(app.js 249-254). The outcome `o` is deliberately not inspected: the three
handlers of the source are identical. -/
def playEndStep (s : Sys) (iv : Nat) (o : POut) : Sys :=
  match s.invs[iv]? with
  | none => s
  | some inv =>
    match inv.pc with
    | PC.awaitPlay i aid =>
      let s1 := { s with playing := s.playing.filter (fun x => !(x = aid)),
                         revoked := insertRevoked (iv, i) s.revoked,
                         trace := s.trace ++ [Act.revokeUrl iv i] }
      if s1.aborted.contains inv.tok then
        { s1 with invs := setPC s1.invs iv PC.finished }
      else if i + 1 < inv.n then
        { s1 with invs := setPC s1.invs iv (PC.awaitFetch (i + 1)) }
      else
        { s1 with invs := setPC s1.invs iv PC.finished,
                  currentAudio := none,
                  btns := s1.btns.set inv.btn BtnPhase.idle,
                  trace := s1.trace ++ [Act.resetBtn inv.btn] }
    | _ => s

/-- Environment commands: user actions and promise resolutions. -/
inductive Cmd
  | play (b : Nat) (text : List Char)
  | stop
  | fetchRes (iv : Nat) (ok : Bool)
  | blobRes (iv : Nat)
  | playEnd (iv : Nat) (o : POut)
deriving DecidableEq, Repr

def step (s : Sys) : Cmd → Sys
  | Cmd.play b text => playStep s b text
  | Cmd.stop => stopTTS s
  | Cmd.fetchRes iv ok => fetchStep s iv ok
  | Cmd.blobRes iv => blobStep s iv
  | Cmd.playEnd iv o => playEndStep s iv o

def run (s : Sys) : List Cmd → Sys
  | [] => s
  | c :: cs => run (step s c) cs

/-- Initial state: no invocation, no audio, `k` idle buttons. -/
def init (k : Nat) : Sys :=
  ⟨[], [], none, none, 0, [], [], [], List.replicate k BtnPhase.idle, [], []⟩

/-- States the narration subsystem can actually be in. -/
def Reachable (s : Sys) : Prop := ∃ k cmds, run (init k) cmds = s

/-! Trace well-formedness checkers for claim C2. -/

/-- A `fetchIssue iv j` with `j > 0` not immediately preceded by
`fetchOk iv (j-1)` violates the prefetch discipline. -/
def adjBad (prev : Option Act) (a : Act) : Bool :=
  match a with
  | Act.fetchIssue iv j =>
    if j = 0 then false
    else
      match prev with
      | some (Act.fetchOk iv2 j2) => !(iv2 = iv && j2 + 1 = j)
      | _ => true
  | _ => false

def adjGo (prev : Option Act) : List Act → Bool
  | [] => true
  | a :: rest => !adjBad prev a && adjGo (some a) rest

/-- Every prefetch is issued in the same synchronous continuation as the
previous chunk's response arrival. -/
def adjOK (tr : List Act) : Bool := adjGo none tr


/-- Ordering checks at one action, given the set of earlier actions: a
chunk's decode (`createUrl`) happens only after the next chunk's fetch was
issued, and playback only after the chunk-0 fetch was issued. -/
def seenGood (seen : List Act) (a : Act) : Bool :=
  match a with
  | Act.createUrl iv i n =>
    if i + 1 < n then decide (Act.fetchIssue iv (i + 1) ∈ seen) else true
  | Act.playStart iv _ _ => decide (Act.fetchIssue iv 0 ∈ seen)
  | _ => true

def seenOK (seen : List Act) : List Act → Bool
  | [] => true
  | a :: rest => seenGood seen a && seenOK (seen ++ [a]) rest

def lastD (p : Option Act) (t : List Act) : Option Act :=
  match t.getLast? with
  | some a => some a
  | none => p

lemma lastD_cons (p : Option Act) (a : Act) (t : List Act) :
    lastD p (a :: t) = lastD (some a) t := by
  cases t with
  | nil => simp [lastD]
  | cons y ys =>
    cases h : (y :: ys).getLast? with
    | none => simp at h
    | some x => simp [lastD, List.getLast?_cons_cons, h]

lemma adjGo_append (p : Option Act) (t u : List Act) :
    adjGo p (t ++ u) = (adjGo p t && adjGo (lastD p t) u) := by
  induction t generalizing p with
  | nil => simp [adjGo, lastD]
  | cons a rest ih =>
    have h1 : adjGo p ((a :: rest) ++ u) =
        (!adjBad p a && adjGo (some a) (rest ++ u)) := rfl
    have h2 : adjGo p (a :: rest) = (!adjBad p a && adjGo (some a) rest) := rfl
    rw [h1, h2, ih (some a), lastD_cons, Bool.and_assoc]

lemma seenOK_append (seen t u : List Act) :
    seenOK seen (t ++ u) = (seenOK seen t && seenOK (seen ++ t) u) := by
  induction t generalizing seen with
  | nil => simp [seenOK]
  | cons a rest ih =>
    have h1 : seenOK seen ((a :: rest) ++ u) =
        (seenGood seen a && seenOK (seen ++ [a]) (rest ++ u)) := rfl
    have h2 : seenOK seen (a :: rest) =
        (seenGood seen a && seenOK (seen ++ [a]) rest) := rfl
    rw [h1, h2, ih (seen ++ [a]), Bool.and_assoc, List.append_assoc]
    rfl

lemma seenGood_subset (s1 s2 : List Act) (a : Act)
    (hsub : ∀ x ∈ s1, x ∈ s2) (h : seenGood s1 a = true) :
    seenGood s2 a = true := by
  cases a with
  | createUrl iv i n =>
    simp only [seenGood] at h ⊢
    split
    · rename_i hlt
      rw [if_pos hlt] at h
      simp only [decide_eq_true_eq] at h ⊢
      exact hsub _ h
    · rfl
  | playStart iv i a2 =>
    simp only [seenGood, decide_eq_true_eq] at h ⊢
    exact hsub _ h
  | sigAbort t => rfl
  | pauseAudio a2 => rfl
  | resetBtn b => rfl
  | setLoading b => rfl
  | setPlaying b => rfl
  | fetchIssue iv i => rfl
  | fetchOk iv i => rfl
  | fetchFail iv i => rfl
  | blobDone iv i => rfl
  | errorReported iv => rfl
  | revokeUrl iv i => rfl

lemma seenOK_subset (s1 s2 tr : List Act)
    (hsub : ∀ x ∈ s1, x ∈ s2) (h : seenOK s1 tr = true) :
    seenOK s2 tr = true := by
  induction tr generalizing s1 s2 with
  | nil => rfl
  | cons a rest ih =>
    simp only [seenOK, Bool.and_eq_true] at h ⊢
    refine ⟨seenGood_subset s1 s2 a hsub h.1, ?_⟩
    refine ih (s1 ++ [a]) (s2 ++ [a]) ?_ h.2
    intro x hx
    rcases List.mem_append.mp hx with hx | hx
    · exact List.mem_append.mpr (Or.inl (hsub x hx))
    · exact List.mem_append.mpr (Or.inr hx)

/-! List-access helper lemmas for the state machine proofs. -/

lemma setPC_length (invs : List Inv) (iv : Nat) (pc : PC) :
    (setPC invs iv pc).length = invs.length := by
  unfold setPC
  cases h : invs[iv]? <;> simp

lemma setPC_get_self (invs : List Inv) (iv : Nat) (pc : PC) (inv : Inv)
    (h : invs[iv]? = some inv) :
    (setPC invs iv pc)[iv]? = some { inv with pc := pc } := by
  unfold setPC
  rw [h]
  exact List.getElem?_set_self (List.getElem?_eq_some.mp h).1

lemma setPC_get_ne (invs : List Inv) (iv : Nat) (pc : PC) (iv2 : Nat)
    (h : iv ≠ iv2) : (setPC invs iv pc)[iv2]? = invs[iv2]? := by
  unfold setPC
  cases h2 : invs[iv]? with
  | none => rfl
  | some inv => exact List.getElem?_set_ne h

lemma mapIdxGo_length (f : Nat → Inv → Inv) (k : Nat) (l : List Inv) :
    (mapIdxGo f k l).length = l.length := by
  induction l generalizing k with
  | nil => rfl
  | cons x xs ih => simp [mapIdxGo, ih]

lemma mapIdxGo_get (f : Nat → Inv → Inv) (k i : Nat) (l : List Inv) :
    (mapIdxGo f k l)[i]? = (l[i]?).map (f (k + i)) := by
  induction l generalizing k i with
  | nil => simp [mapIdxGo]
  | cons x xs ih =>
    cases i with
    | zero => simp [mapIdxGo]
    | succ j =>
      have harith : k + 1 + j = k + (j + 1) := by omega
      simp only [mapIdxGo, List.getElem?_cons_succ, ih (k + 1) j, harith]

lemma mapIdx_get (f : Nat → Inv → Inv) (i : Nat) (l : List Inv) :
    (mapIdx f l)[i]? = (l[i]?).map (f i) := by
  unfold mapIdx
  simpa using mapIdxGo_get f 0 i l

lemma mapIdx_length (f : Nat → Inv → Inv) (l : List Inv) :
    (mapIdx f l).length = l.length := mapIdxGo_length f 0 l

lemma mem_insertRevoked (p q : Nat × Nat) (l : List (Nat × Nat)) :
    p ∈ insertRevoked q l ↔ p = q ∨ p ∈ l := by
  unfold insertRevoked
  split
  · rename_i hq
    constructor
    · exact fun h => Or.inr h
    · rintro (rfl | h)
      · exact hq
      · exact h
  · simp [or_comm]

lemma subset_insertRevoked (q : Nat × Nat) (l : List (Nat × Nat)) (p : Nat × Nat)
    (h : p ∈ l) : p ∈ insertRevoked q l :=
  (mem_insertRevoked p q l).mpr (Or.inr h)

lemma mem_foldl_insertRevoked (fired : List (Nat × Nat × Nat × Nat))
    (r0 : List (Nat × Nat)) (p : Nat × Nat) :
    p ∈ fired.foldl (fun r l => insertRevoked (l.2.1, l.2.2.1) r) r0 ↔
      p ∈ r0 ∨ ∃ l ∈ fired, p = (l.2.1, l.2.2.1) := by
  induction fired generalizing r0 with
  | nil => simp
  | cons f fs ih =>
    simp only [List.foldl_cons, ih, mem_insertRevoked]
    constructor
    · rintro ((h | h) | h)
      · exact Or.inr ⟨f, List.mem_cons_self f fs, h⟩
      · exact Or.inl h
      · rcases h with ⟨l, hl, hp⟩
        exact Or.inr ⟨l, List.mem_cons_of_mem f hl, hp⟩
    · rintro (h | ⟨l, hl, hp⟩)
      · exact Or.inl (Or.inr h)
      · rcases List.mem_cons.mp hl with rfl | hl2
        · exact Or.inl (Or.inl hp)
        · exact Or.inr ⟨l, hl2, hp⟩

/-- The chunk fetches in flight as a function of the suspension point:
waiting on chunk `i`'s response keeps fetch `i` in flight; downloading
chunk `i`'s body keeps fetch `i` plus the prefetched `i+1`; during playback
of chunk `i` only the prefetched `i+1` remains. -/
def pcInflight (iv : Nat) : PC → Nat → List (Nat × Nat)
  | PC.awaitFetch i, _ => [(iv, i)]
  | PC.awaitBlob i, n => (iv, i) :: (if i + 1 < n then [(iv, i + 1)] else [])
  | PC.awaitPlay i _, n => if i + 1 < n then [(iv, i + 1)] else []
  | PC.finished, _ => []

/-- Inductive invariant of the narration machine. -/
structure Good (s : Sys) : Prop where
  tok_eq : ∀ (iv : Nat) (inv : Inv), s.invs[iv]? = some inv → inv.tok = iv
  active_tts : ∀ (iv : Nat) (inv : Inv), s.invs[iv]? = some inv →
    inv.tok ∉ s.aborted → s.ttsAbort = some inv.tok
  tts_lt : ∀ t, s.ttsAbort = some t → t < s.invs.length
  aborted_lt : ∀ t ∈ s.aborted, t < s.invs.length
  listener_tok : ∀ l ∈ s.listeners,
    ∃ inv : Inv, s.invs[l.2.1]? = some inv ∧ inv.tok = l.1
  listener_present : ∀ (iv : Nat) (inv : Inv) (i a : Nat),
    s.invs[iv]? = some inv →
    inv.pc = PC.awaitPlay i a → (inv.tok, iv, i, a) ∈ s.listeners
  play_unaborted : ∀ (iv : Nat) (inv : Inv) (i a : Nat),
    s.invs[iv]? = some inv →
    inv.pc = PC.awaitPlay i a → inv.tok ∉ s.aborted
  playing_ok : s.playing = [] ∨ ∃ (iv : Nat) (inv : Inv) (i a : Nat),
    s.invs[iv]? = some inv ∧
    inv.pc = PC.awaitPlay i a ∧ inv.tok ∉ s.aborted ∧ s.playing = [a]
  inflight_pc : ∀ (iv : Nat) (inv : Inv), s.invs[iv]? = some inv →
    s.inflight.filter (fun p => p.1 = iv) =
      (if inv.tok ∈ s.aborted then [] else pcInflight iv inv.pc inv.n)
  inflight_scope : ∀ p ∈ s.inflight, p.1 < s.invs.length
  hist_blob : ∀ (iv : Nat) (inv : Inv) (i : Nat), s.invs[iv]? = some inv →
    inv.pc = PC.awaitBlob i →
    i + 1 < inv.n → Act.fetchIssue iv (i + 1) ∈ s.trace
  hist_zero : ∀ iv, iv < s.invs.length → Act.fetchIssue iv 0 ∈ s.trace
  url_exit : ∀ iv i n, Act.createUrl iv i n ∈ s.trace →
    (iv, i) ∈ s.revoked ∨ ∃ (inv : Inv) (a : Nat),
      s.invs[iv]? = some inv ∧ inv.pc = PC.awaitPlay i a
  adj : adjOK s.trace = true
  seen : seenOK [] s.trace = true

lemma good_init (k : Nat) : Good (init k) := by
  refine ⟨?_, ?_, ?_, ?_, ?_, ?_, ?_, ?_, ?_, ?_, ?_, ?_, ?_, ?_, ?_⟩ <;>
    simp [init, adjOK, adjGo, seenOK]

/-- Acts that can never violate the adjacency checker. -/
def isIssue (a : Act) : Bool :=
  match a with
  | Act.fetchIssue _ _ => true
  | _ => false

/-- Acts that the seen-checker inspects. -/
def isOrdered (a : Act) : Bool :=
  match a with
  | Act.createUrl _ _ _ => true
  | Act.playStart _ _ _ => true
  | _ => false

lemma adjBad_of_not_issue (p : Option Act) (a : Act) (h : isIssue a = false) :
    adjBad p a = false := by
  cases a <;> simp_all [isIssue, adjBad]

lemma adjGo_of_no_issue (p : Option Act) (u : List Act)
    (h : ∀ a ∈ u, isIssue a = false) : adjGo p u = true := by
  induction u generalizing p with
  | nil => rfl
  | cons a rest ih =>
    simp only [adjGo, Bool.and_eq_true]
    refine ⟨?_, ih (some a) (fun x hx => h x (List.mem_cons_of_mem a hx))⟩
    rw [adjBad_of_not_issue p a (h a (List.mem_cons_self a rest))]
    rfl

lemma seenGood_of_not_ordered (seen : List Act) (a : Act)
    (h : isOrdered a = false) : seenGood seen a = true := by
  cases a <;> simp_all [isOrdered, seenGood]

lemma seenOK_of_no_ordered (seen : List Act) (u : List Act)
    (h : ∀ a ∈ u, isOrdered a = false) : seenOK seen u = true := by
  induction u generalizing seen with
  | nil => rfl
  | cons a rest ih =>
    simp only [seenOK, Bool.and_eq_true]
    exact ⟨seenGood_of_not_ordered seen a (h a (List.mem_cons_self a rest)),
      ih (seen ++ [a]) (fun x hx => h x (List.mem_cons_of_mem a hx))⟩

lemma filter_key_append (l : List (Nat × Nat)) (x : Nat × Nat) (iv : Nat) :
    (l ++ [x]).filter (fun p => p.1 = iv) =
      l.filter (fun p => p.1 = iv) ++ (if x.1 = iv then [x] else []) := by
  rw [List.filter_append]
  congr 1
  by_cases h : x.1 = iv <;> simp [List.filter, h]

lemma filter_filter_comm (l : List (Nat × Nat)) (p q : Nat × Nat → Bool) :
    (l.filter p).filter q = (l.filter q).filter p := by
  simp [List.filter_filter, Bool.and_comm]

lemma filter_key_of_imp (l : List (Nat × Nat)) (q : Nat × Nat → Bool) (iv : Nat)
    (h : ∀ p : Nat × Nat, p.1 = iv → q p = true) :
    (l.filter q).filter (fun p => p.1 = iv) = l.filter (fun p => p.1 = iv) := by
  rw [filter_filter_comm]
  apply List.filter_eq_self.mpr
  intro x hx
  have hk : x.1 = iv := by
    have := List.of_mem_filter hx
    simpa using this
  exact h x hk

lemma good_setFinished (s : Sys) (iv : Nat) (inv : Inv)
    (hinv : s.invs[iv]? = some inv)
    (hnotplay : ∀ i a, inv.pc ≠ PC.awaitPlay i a)
    (hab : inv.tok ∈ s.aborted) (g : Good s) :
    Good { s with invs := setPC s.invs iv PC.finished } := by
  have hget : ∀ (iv2 : Nat) (inv2 : Inv),
      (setPC s.invs iv PC.finished)[iv2]? = some inv2 →
      (iv2 = iv ∧ inv2 = { inv with pc := PC.finished }) ∨
      (iv2 ≠ iv ∧ s.invs[iv2]? = some inv2) := by
    intro iv2 inv2 h2
    by_cases heq : iv2 = iv
    · subst heq
      rw [setPC_get_self s.invs iv2 PC.finished inv hinv] at h2
      exact Or.inl ⟨rfl, ((Option.some.injEq _ _).mp h2.symm)⟩
    · rw [setPC_get_ne s.invs iv PC.finished iv2 (fun h => heq h.symm)] at h2
      exact Or.inr ⟨heq, h2⟩
  have hgetback : ∀ (iv2 : Nat) (inv2 : Inv), s.invs[iv2]? = some inv2 →
      ∃ inv3 : Inv, (setPC s.invs iv PC.finished)[iv2]? = some inv3 ∧
        inv3.tok = inv2.tok := by
    intro iv2 inv2 h2
    by_cases heq : iv2 = iv
    · subst heq
      have : inv2 = inv := by rw [h2] at hinv; exact (Option.some.injEq _ _).mp hinv
      subst this
      exact ⟨{ inv2 with pc := PC.finished },
        setPC_get_self s.invs iv2 PC.finished inv2 h2, rfl⟩
    · exact ⟨inv2, by
        rw [setPC_get_ne s.invs iv PC.finished iv2 (fun h => heq h.symm)]
        exact h2, rfl⟩
  refine ⟨?_, ?_, ?_, ?_, ?_, ?_, ?_, ?_, ?_, ?_, ?_, ?_, ?_, ?_, ?_⟩
  · intro iv2 inv2 h2
    rcases hget iv2 inv2 h2 with ⟨rfl, rfl⟩ | ⟨hne, h3⟩
    · exact g.tok_eq iv2 inv hinv
    · exact g.tok_eq iv2 inv2 h3
  · intro iv2 inv2 h2 hna
    rcases hget iv2 inv2 h2 with ⟨rfl, rfl⟩ | ⟨hne, h3⟩
    · exact absurd hab hna
    · exact g.active_tts iv2 inv2 h3 hna
  · intro t ht
    rw [setPC_length]
    exact g.tts_lt t ht
  · intro t ht
    rw [setPC_length]
    exact g.aborted_lt t ht
  · intro l hl
    obtain ⟨inv2, h2, h3⟩ := g.listener_tok l hl
    obtain ⟨inv3, h4, h5⟩ := hgetback l.2.1 inv2 h2
    exact ⟨inv3, h4, h5.trans h3⟩
  · intro iv2 inv2 i a h2 hp
    rcases hget iv2 inv2 h2 with ⟨rfl, rfl⟩ | ⟨hne, h3⟩
    · simp at hp
    · exact g.listener_present iv2 inv2 i a h3 hp
  · intro iv2 inv2 i a h2 hp
    rcases hget iv2 inv2 h2 with ⟨rfl, rfl⟩ | ⟨hne, h3⟩
    · simp at hp
    · exact g.play_unaborted iv2 inv2 i a h3 hp
  · rcases g.playing_ok with h | ⟨ivo, invo, i, a, h2, hp, hna, hpl⟩
    · exact Or.inl h
    · refine Or.inr ⟨ivo, invo, i, a, ?_, hp, hna, hpl⟩
      have hne : ivo ≠ iv := by
        intro heq
        subst heq
        rw [h2] at hinv
        have := (Option.some.injEq _ _).mp hinv
        subst this
        exact hnotplay i a hp
      rw [setPC_get_ne s.invs iv PC.finished ivo (fun h => hne h.symm)]
      exact h2
  · intro iv2 inv2 h2
    rcases hget iv2 inv2 h2 with ⟨rfl, rfl⟩ | ⟨hne, h3⟩
    · simp only [hab, if_pos]
      have old := g.inflight_pc iv2 inv hinv
      rw [if_pos hab] at old
      exact old
    · exact g.inflight_pc iv2 inv2 h3
  · intro p hp
    rw [setPC_length]
    exact g.inflight_scope p hp
  · intro iv2 inv2 i h2 hp
    rcases hget iv2 inv2 h2 with ⟨rfl, rfl⟩ | ⟨hne, h3⟩
    · simp at hp
    · exact g.hist_blob iv2 inv2 i h3 hp
  · intro iv2 h2
    rw [setPC_length] at h2
    exact g.hist_zero iv2 h2
  · intro iv2 i n h2
    rcases g.url_exit iv2 i n h2 with h3 | ⟨inv2, a, h4, h5⟩
    · exact Or.inl h3
    · by_cases hne : iv2 = iv
      · subst hne
        rw [h4] at hinv
        have := (Option.some.injEq _ _).mp hinv
        subst this
        exact absurd h5 (hnotplay i a)
      · refine Or.inr ⟨inv2, a, ?_, h5⟩
        rw [setPC_get_ne s.invs iv PC.finished iv2 (fun h => hne h.symm)]
        exact h4
  · exact g.adj
  · exact g.seen

lemma setPC_cases (invs : List Inv) (iv : Nat) (pc0 : PC) (inv : Inv)
    (hinv : invs[iv]? = some inv) :
    ∀ (iv2 : Nat) (inv2 : Inv), (setPC invs iv pc0)[iv2]? = some inv2 →
      (iv2 = iv ∧ inv2 = { inv with pc := pc0 }) ∨
      (iv2 ≠ iv ∧ invs[iv2]? = some inv2) := by
  intro iv2 inv2 h2
  by_cases heq : iv2 = iv
  · subst heq
    rw [setPC_get_self invs iv2 pc0 inv hinv] at h2
    exact Or.inl ⟨rfl, ((Option.some.injEq _ _).mp h2.symm)⟩
  · rw [setPC_get_ne invs iv pc0 iv2 (fun h => heq h.symm)] at h2
    exact Or.inr ⟨heq, h2⟩

lemma setPC_back (invs : List Inv) (iv : Nat) (pc0 : PC) (inv : Inv)
    (hinv : invs[iv]? = some inv) :
    ∀ (iv2 : Nat) (inv2 : Inv), invs[iv2]? = some inv2 →
      ∃ inv3 : Inv, (setPC invs iv pc0)[iv2]? = some inv3 ∧
        inv3.tok = inv2.tok := by
  intro iv2 inv2 h2
  by_cases heq : iv2 = iv
  · subst heq
    have hei : inv2 = inv := by
      rw [h2] at hinv
      exact (Option.some.injEq _ _).mp hinv
    subst hei
    exact ⟨{ inv2 with pc := pc0 }, setPC_get_self invs iv2 pc0 inv2 h2, rfl⟩
  · exact ⟨inv2, by
      rw [setPC_get_ne invs iv pc0 iv2 (fun h => heq h.symm)]
      exact h2, rfl⟩

lemma getElem?_lt {α : Type} (l : List α) (i : Nat) (x : α)
    (h : l[i]? = some x) : i < l.length :=
  (List.getElem?_eq_some.mp h).1

lemma good_fetchStep (s : Sys) (iv : Nat) (ok : Bool) (g : Good s) :
    Good (fetchStep s iv ok) := by
  unfold fetchStep
  split
  next heq => exact g
  next inv hinv =>
    split
    next i hpc =>
      by_cases hab : s.aborted.contains inv.tok = true
      · rw [if_pos hab]
        exact good_setFinished s iv inv hinv
          (by rw [hpc]; intro i2 a2; simp) (by simpa using hab) g
      · have habm : inv.tok ∉ s.aborted := by simpa using hab
        rw [if_neg hab]
        cases ok with
        | true =>
          rw [if_pos rfl]
          by_cases hlt : i + 1 < inv.n
          · rw [if_pos hlt]
            simp only [List.append_assoc, List.cons_append, List.nil_append]
            refine ⟨?_, ?_, ?_, ?_, ?_, ?_, ?_, ?_, ?_, ?_, ?_, ?_, ?_, ?_, ?_⟩
            · intro iv2 inv2 h2
              rcases setPC_cases s.invs iv (PC.awaitBlob i) inv hinv iv2 inv2 h2 with
                ⟨rfl, rfl⟩ | ⟨hne, h3⟩
              · exact g.tok_eq iv2 inv hinv
              · exact g.tok_eq iv2 inv2 h3
            · intro iv2 inv2 h2 hna
              rcases setPC_cases s.invs iv (PC.awaitBlob i) inv hinv iv2 inv2 h2 with
                ⟨rfl, rfl⟩ | ⟨hne, h3⟩
              · exact g.active_tts iv2 inv hinv hna
              · exact g.active_tts iv2 inv2 h3 hna
            · intro t ht
              rw [setPC_length]
              exact g.tts_lt t ht
            · intro t ht
              rw [setPC_length]
              exact g.aborted_lt t ht
            · intro l hl
              obtain ⟨inv2, h2, h3⟩ := g.listener_tok l hl
              obtain ⟨inv3, h4, h5⟩ :=
                setPC_back s.invs iv (PC.awaitBlob i) inv hinv l.2.1 inv2 h2
              exact ⟨inv3, h4, h5.trans h3⟩
            · intro iv2 inv2 i2 a2 h2 hp
              rcases setPC_cases s.invs iv (PC.awaitBlob i) inv hinv iv2 inv2 h2 with
                ⟨rfl, rfl⟩ | ⟨hne, h3⟩
              · simp at hp
              · exact g.listener_present iv2 inv2 i2 a2 h3 hp
            · intro iv2 inv2 i2 a2 h2 hp
              rcases setPC_cases s.invs iv (PC.awaitBlob i) inv hinv iv2 inv2 h2 with
                ⟨rfl, rfl⟩ | ⟨hne, h3⟩
              · simp at hp
              · exact g.play_unaborted iv2 inv2 i2 a2 h3 hp
            · rcases g.playing_ok with h | ⟨ivo, invo, i2, a2, h2, hp, hna, hpl⟩
              · exact Or.inl h
              · refine Or.inr ⟨ivo, invo, i2, a2, ?_, hp, hna, hpl⟩
                have hne : ivo ≠ iv := by
                  intro heq2
                  subst heq2
                  rw [h2] at hinv
                  have h4 := (Option.some.injEq _ _).mp hinv
                  subst h4
                  rw [hpc] at hp
                  simp at hp
                rw [setPC_get_ne s.invs iv (PC.awaitBlob i) ivo
                  (fun h => hne h.symm)]
                exact h2
            · intro iv2 inv2 h2
              rcases setPC_cases s.invs iv (PC.awaitBlob i) inv hinv iv2 inv2 h2 with
                ⟨rfl, rfl⟩ | ⟨hne, h3⟩
              · have old := g.inflight_pc iv2 inv hinv
                rw [if_neg habm, hpc] at old
                rw [filter_key_append, old]
                simp [pcInflight, hlt, habm]
              · have old := g.inflight_pc iv2 inv2 h3
                rw [filter_key_append, old]
                simp [Ne.symm hne]
            · intro p hp
              rw [setPC_length]
              rcases List.mem_append.mp hp with h | h
              · exact g.inflight_scope p h
              · simp only [List.mem_singleton] at h
                subst h
                exact getElem?_lt s.invs iv inv hinv
            · intro iv2 inv2 i2 h2 hp hlt2
              rcases setPC_cases s.invs iv (PC.awaitBlob i) inv hinv iv2 inv2 h2 with
                ⟨rfl, rfl⟩ | ⟨hne, h3⟩
              · have hi : i = i2 := by simpa using hp
                subst hi
                exact List.mem_append.mpr (Or.inr (by simp))
              · exact List.mem_append.mpr
                  (Or.inl (g.hist_blob iv2 inv2 i2 h3 hp hlt2))
            · intro iv2 h2
              rw [setPC_length] at h2
              exact List.mem_append.mpr (Or.inl (g.hist_zero iv2 h2))
            · intro iv2 i2 n2 h2
              have h2b : Act.createUrl iv2 i2 n2 ∈ s.trace := by
                rcases List.mem_append.mp h2 with h | h
                · exact h
                · simp at h
              rcases g.url_exit iv2 i2 n2 h2b with h3 | ⟨inv2, a2, h4, h5⟩
              · exact Or.inl h3
              · by_cases hne : iv2 = iv
                · subst hne
                  rw [h4] at hinv
                  have h6 := (Option.some.injEq _ _).mp hinv
                  subst h6
                  rw [hpc] at h5
                  simp at h5
                · refine Or.inr ⟨inv2, a2, ?_, h5⟩
                  rw [setPC_get_ne s.invs iv (PC.awaitBlob i) iv2
                    (fun h => hne h.symm)]
                  exact h4
            · unfold adjOK
              rw [adjGo_append]
              refine (Bool.and_eq_true _ _).mpr ⟨g.adj, ?_⟩
              simp [adjGo, adjBad]
            · rw [seenOK_append]
              refine (Bool.and_eq_true _ _).mpr ⟨g.seen, ?_⟩
              refine seenOK_of_no_ordered _ _ ?_
              intro a2 ha2
              rcases List.mem_cons.mp ha2 with rfl | h
              · rfl
              · simp only [List.mem_singleton] at h
                subst h
                rfl
          · rw [if_neg hlt]
            refine ⟨?_, ?_, ?_, ?_, ?_, ?_, ?_, ?_, ?_, ?_, ?_, ?_, ?_, ?_, ?_⟩
            · intro iv2 inv2 h2
              rcases setPC_cases s.invs iv (PC.awaitBlob i) inv hinv iv2 inv2 h2 with
                ⟨rfl, rfl⟩ | ⟨hne, h3⟩
              · exact g.tok_eq iv2 inv hinv
              · exact g.tok_eq iv2 inv2 h3
            · intro iv2 inv2 h2 hna
              rcases setPC_cases s.invs iv (PC.awaitBlob i) inv hinv iv2 inv2 h2 with
                ⟨rfl, rfl⟩ | ⟨hne, h3⟩
              · exact g.active_tts iv2 inv hinv hna
              · exact g.active_tts iv2 inv2 h3 hna
            · intro t ht
              rw [setPC_length]
              exact g.tts_lt t ht
            · intro t ht
              rw [setPC_length]
              exact g.aborted_lt t ht
            · intro l hl
              obtain ⟨inv2, h2, h3⟩ := g.listener_tok l hl
              obtain ⟨inv3, h4, h5⟩ :=
                setPC_back s.invs iv (PC.awaitBlob i) inv hinv l.2.1 inv2 h2
              exact ⟨inv3, h4, h5.trans h3⟩
            · intro iv2 inv2 i2 a2 h2 hp
              rcases setPC_cases s.invs iv (PC.awaitBlob i) inv hinv iv2 inv2 h2 with
                ⟨rfl, rfl⟩ | ⟨hne, h3⟩
              · simp at hp
              · exact g.listener_present iv2 inv2 i2 a2 h3 hp
            · intro iv2 inv2 i2 a2 h2 hp
              rcases setPC_cases s.invs iv (PC.awaitBlob i) inv hinv iv2 inv2 h2 with
                ⟨rfl, rfl⟩ | ⟨hne, h3⟩
              · simp at hp
              · exact g.play_unaborted iv2 inv2 i2 a2 h3 hp
            · rcases g.playing_ok with h | ⟨ivo, invo, i2, a2, h2, hp, hna, hpl⟩
              · exact Or.inl h
              · refine Or.inr ⟨ivo, invo, i2, a2, ?_, hp, hna, hpl⟩
                have hne : ivo ≠ iv := by
                  intro heq2
                  subst heq2
                  rw [h2] at hinv
                  have h4 := (Option.some.injEq _ _).mp hinv
                  subst h4
                  rw [hpc] at hp
                  simp at hp
                rw [setPC_get_ne s.invs iv (PC.awaitBlob i) ivo
                  (fun h => hne h.symm)]
                exact h2
            · intro iv2 inv2 h2
              rcases setPC_cases s.invs iv (PC.awaitBlob i) inv hinv iv2 inv2 h2 with
                ⟨rfl, rfl⟩ | ⟨hne, h3⟩
              · have old := g.inflight_pc iv2 inv hinv
                rw [if_neg habm, hpc] at old
                rw [old]
                simp [pcInflight, hlt, habm]
              · exact g.inflight_pc iv2 inv2 h3
            · intro p hp
              rw [setPC_length]
              exact g.inflight_scope p hp
            · intro iv2 inv2 i2 h2 hp hlt2
              rcases setPC_cases s.invs iv (PC.awaitBlob i) inv hinv iv2 inv2 h2 with
                ⟨rfl, rfl⟩ | ⟨hne, h3⟩
              · have hi : i = i2 := by simpa using hp
                subst hi
                exact absurd (by simpa using hlt2) hlt
              · exact List.mem_append.mpr
                  (Or.inl (g.hist_blob iv2 inv2 i2 h3 hp hlt2))
            · intro iv2 h2
              rw [setPC_length] at h2
              exact List.mem_append.mpr (Or.inl (g.hist_zero iv2 h2))
            · intro iv2 i2 n2 h2
              have h2b : Act.createUrl iv2 i2 n2 ∈ s.trace := by
                rcases List.mem_append.mp h2 with h | h
                · exact h
                · simp at h
              rcases g.url_exit iv2 i2 n2 h2b with h3 | ⟨inv2, a2, h4, h5⟩
              · exact Or.inl h3
              · by_cases hne : iv2 = iv
                · subst hne
                  rw [h4] at hinv
                  have h6 := (Option.some.injEq _ _).mp hinv
                  subst h6
                  rw [hpc] at h5
                  simp at h5
                · refine Or.inr ⟨inv2, a2, ?_, h5⟩
                  rw [setPC_get_ne s.invs iv (PC.awaitBlob i) iv2
                    (fun h => hne h.symm)]
                  exact h4
            · unfold adjOK
              rw [adjGo_append]
              refine (Bool.and_eq_true _ _).mpr ⟨g.adj, ?_⟩
              refine adjGo_of_no_issue _ _ ?_
              intro a2 ha2
              simp only [List.mem_singleton] at ha2
              subst ha2
              rfl
            · rw [seenOK_append]
              refine (Bool.and_eq_true _ _).mpr ⟨g.seen, ?_⟩
              refine seenOK_of_no_ordered _ _ ?_
              intro a2 ha2
              simp only [List.mem_singleton] at ha2
              subst ha2
              rfl
        | false =>
          rw [if_neg (by simp)]
          refine ⟨?_, ?_, ?_, ?_, ?_, ?_, ?_, ?_, ?_, ?_, ?_, ?_, ?_, ?_, ?_⟩
          · intro iv2 inv2 h2
            rcases setPC_cases s.invs iv PC.finished inv hinv iv2 inv2 h2 with
              ⟨rfl, rfl⟩ | ⟨hne, h3⟩
            · exact g.tok_eq iv2 inv hinv
            · exact g.tok_eq iv2 inv2 h3
          · intro iv2 inv2 h2 hna
            rcases setPC_cases s.invs iv PC.finished inv hinv iv2 inv2 h2 with
              ⟨rfl, rfl⟩ | ⟨hne, h3⟩
            · exact g.active_tts iv2 inv hinv hna
            · exact g.active_tts iv2 inv2 h3 hna
          · intro t ht
            rw [setPC_length]
            exact g.tts_lt t ht
          · intro t ht
            rw [setPC_length]
            exact g.aborted_lt t ht
          · intro l hl
            obtain ⟨inv2, h2, h3⟩ := g.listener_tok l hl
            obtain ⟨inv3, h4, h5⟩ :=
              setPC_back s.invs iv PC.finished inv hinv l.2.1 inv2 h2
            exact ⟨inv3, h4, h5.trans h3⟩
          · intro iv2 inv2 i2 a2 h2 hp
            rcases setPC_cases s.invs iv PC.finished inv hinv iv2 inv2 h2 with
              ⟨rfl, rfl⟩ | ⟨hne, h3⟩
            · simp at hp
            · exact g.listener_present iv2 inv2 i2 a2 h3 hp
          · intro iv2 inv2 i2 a2 h2 hp
            rcases setPC_cases s.invs iv PC.finished inv hinv iv2 inv2 h2 with
              ⟨rfl, rfl⟩ | ⟨hne, h3⟩
            · simp at hp
            · exact g.play_unaborted iv2 inv2 i2 a2 h3 hp
          · rcases g.playing_ok with h | ⟨ivo, invo, i2, a2, h2, hp, hna, hpl⟩
            · exact Or.inl h
            · refine Or.inr ⟨ivo, invo, i2, a2, ?_, hp, hna, hpl⟩
              have hne : ivo ≠ iv := by
                intro heq2
                subst heq2
                rw [h2] at hinv
                have h4 := (Option.some.injEq _ _).mp hinv
                subst h4
                rw [hpc] at hp
                simp at hp
              rw [setPC_get_ne s.invs iv PC.finished ivo (fun h => hne h.symm)]
              exact h2
          · intro iv2 inv2 h2
            rcases setPC_cases s.invs iv PC.finished inv hinv iv2 inv2 h2 with
              ⟨rfl, rfl⟩ | ⟨hne, h3⟩
            · have old := g.inflight_pc iv2 inv hinv
              rw [if_neg habm, hpc] at old
              rw [filter_filter_comm, old]
              simp [pcInflight, habm]
            · have old := g.inflight_pc iv2 inv2 h3
              rw [filter_key_of_imp _ _ _ ?_, old]
              intro p hpk
              by_cases hpe : p = (iv, i)
              · subst hpe
                simp at hpk
                exact absurd hpk.symm hne
              · simp [hpe]
          · intro p hp
            rw [setPC_length]
            exact g.inflight_scope p (List.mem_of_mem_filter hp)
          · intro iv2 inv2 i2 h2 hp hlt2
            rcases setPC_cases s.invs iv PC.finished inv hinv iv2 inv2 h2 with
              ⟨rfl, rfl⟩ | ⟨hne, h3⟩
            · simp at hp
            · exact List.mem_append.mpr
                (Or.inl (g.hist_blob iv2 inv2 i2 h3 hp hlt2))
          · intro iv2 h2
            rw [setPC_length] at h2
            exact List.mem_append.mpr (Or.inl (g.hist_zero iv2 h2))
          · intro iv2 i2 n2 h2
            have h2b : Act.createUrl iv2 i2 n2 ∈ s.trace := by
              rcases List.mem_append.mp h2 with h | h
              · exact h
              · simp at h
            rcases g.url_exit iv2 i2 n2 h2b with h3 | ⟨inv2, a2, h4, h5⟩
            · exact Or.inl h3
            · by_cases hne : iv2 = iv
              · subst hne
                rw [h4] at hinv
                have h6 := (Option.some.injEq _ _).mp hinv
                subst h6
                rw [hpc] at h5
                simp at h5
              · refine Or.inr ⟨inv2, a2, ?_, h5⟩
                rw [setPC_get_ne s.invs iv PC.finished iv2 (fun h => hne h.symm)]
                exact h4
          · unfold adjOK
            rw [adjGo_append]
            refine (Bool.and_eq_true _ _).mpr ⟨g.adj, ?_⟩
            refine adjGo_of_no_issue _ _ ?_
            intro a2 ha2
            rcases List.mem_cons.mp ha2 with rfl | h
            · rfl
            · rcases List.mem_cons.mp h with rfl | h2
              · rfl
              · simp only [List.mem_singleton] at h2
                subst h2
                rfl
          · rw [seenOK_append]
            refine (Bool.and_eq_true _ _).mpr ⟨g.seen, ?_⟩
            refine seenOK_of_no_ordered _ _ ?_
            intro a2 ha2
            rcases List.mem_cons.mp ha2 with rfl | h
            · rfl
            · rcases List.mem_cons.mp h with rfl | h2
              · rfl
              · simp only [List.mem_singleton] at h2
                subst h2
                rfl
    next hpc => exact g


lemma good_blobStep (s : Sys) (iv : Nat) (g : Good s) :
    Good (blobStep s iv) := by
  unfold blobStep
  split
  next heq => exact g
  next inv hinv =>
    split
    next i hpc =>
      by_cases hab : s.aborted.contains inv.tok = true
      · rw [if_pos hab]
        exact good_setFinished s iv inv hinv
          (by rw [hpc]; intro i2 a2; simp) (by simpa using hab) g
      · have habm : inv.tok ∉ s.aborted := by simpa using hab
        rw [if_neg hab]
        by_cases hi0 : i = 0
        · simp only [List.append_assoc, List.cons_append, List.nil_append]
          rw [if_pos hi0]
          simp only [List.append_assoc, List.cons_append, List.nil_append]
          refine ⟨?_, ?_, ?_, ?_, ?_, ?_, ?_, ?_, ?_, ?_, ?_, ?_, ?_, ?_, ?_⟩
          · intro iv2 inv2 h2
            rcases setPC_cases s.invs iv (PC.awaitPlay i s.nextAudio) inv hinv iv2 inv2 h2 with
              ⟨rfl, rfl⟩ | ⟨hne, h3⟩
            · exact g.tok_eq iv2 inv hinv
            · exact g.tok_eq iv2 inv2 h3
          · intro iv2 inv2 h2 hna
            rcases setPC_cases s.invs iv (PC.awaitPlay i s.nextAudio) inv hinv iv2 inv2 h2 with
              ⟨rfl, rfl⟩ | ⟨hne, h3⟩
            · exact g.active_tts iv2 inv hinv hna
            · exact g.active_tts iv2 inv2 h3 hna
          · intro t ht
            rw [setPC_length]
            exact g.tts_lt t ht
          · intro t ht
            rw [setPC_length]
            exact g.aborted_lt t ht
          · intro l hl
            rcases List.mem_append.mp hl with hl2 | hl2
            · obtain ⟨inv2, h2, h3⟩ := g.listener_tok l hl2
              obtain ⟨inv3, h4, h5⟩ :=
                setPC_back s.invs iv (PC.awaitPlay i s.nextAudio) inv hinv l.2.1 inv2 h2
              exact ⟨inv3, h4, h5.trans h3⟩
            · simp only [List.mem_singleton] at hl2
              subst hl2
              exact ⟨{ inv with pc := PC.awaitPlay i s.nextAudio },
                setPC_get_self s.invs iv (PC.awaitPlay i s.nextAudio) inv hinv, rfl⟩
          · intro iv2 inv2 i2 a2 h2 hp
            rcases setPC_cases s.invs iv (PC.awaitPlay i s.nextAudio) inv hinv iv2 inv2 h2 with
              ⟨rfl, rfl⟩ | ⟨hne, h3⟩
            · have hpi : PC.awaitPlay i s.nextAudio = PC.awaitPlay i2 a2 := hp
              have hi2 : i = i2 ∧ s.nextAudio = a2 := by
                cases hpi
                exact ⟨rfl, rfl⟩
              obtain ⟨rfl, rfl⟩ := hi2
              refine List.mem_append.mpr (Or.inr ?_)
              simp
            · exact List.mem_append.mpr
                (Or.inl (g.listener_present iv2 inv2 i2 a2 h3 hp))
          · intro iv2 inv2 i2 a2 h2 hp
            rcases setPC_cases s.invs iv (PC.awaitPlay i s.nextAudio) inv hinv iv2 inv2 h2 with
              ⟨rfl, rfl⟩ | ⟨hne, h3⟩
            · exact habm
            · exact g.play_unaborted iv2 inv2 i2 a2 h3 hp
          · have hplnil : s.playing = [] := by
              rcases g.playing_ok with h | ⟨ivo, invo, i2, a2, h2, hp, hna, hpl⟩
              · exact h
              · exfalso
                have e1 := g.active_tts ivo invo h2 hna
                have e2 := g.active_tts iv inv hinv habm
                rw [e1] at e2
                have e3 : invo.tok = inv.tok := (Option.some.injEq _ _).mp e2
                have e4 := g.tok_eq ivo invo h2
                have e5 := g.tok_eq iv inv hinv
                have e6 : ivo = iv := by omega
                subst e6
                rw [h2] at hinv
                have e7 := (Option.some.injEq _ _).mp hinv
                subst e7
                rw [hpc] at hp
                simp at hp
            refine Or.inr ⟨iv, { inv with pc := PC.awaitPlay i s.nextAudio },
              i, s.nextAudio,
              setPC_get_self s.invs iv (PC.awaitPlay i s.nextAudio) inv hinv,
              rfl, habm, ?_⟩
            rw [hplnil]
            rfl
          · intro iv2 inv2 h2
            rcases setPC_cases s.invs iv (PC.awaitPlay i s.nextAudio) inv hinv iv2 inv2 h2 with
              ⟨rfl, rfl⟩ | ⟨hne, h3⟩
            · have old := g.inflight_pc iv2 inv hinv
              rw [if_neg habm, hpc] at old
              rw [filter_filter_comm, old]
              by_cases hlt : i + 1 < inv.n <;>
                simp [pcInflight, hlt, habm, List.filter]
            · have old := g.inflight_pc iv2 inv2 h3
              rw [filter_key_of_imp _ _ _ ?_, old]
              intro p hpk
              by_cases hpe : p = (iv, i)
              · subst hpe
                simp at hpk
                exact absurd hpk.symm hne
              · simp [hpe]
          · intro p hp
            rw [setPC_length]
            exact g.inflight_scope p (List.mem_of_mem_filter hp)
          · intro iv2 inv2 i2 h2 hp hlt2
            rcases setPC_cases s.invs iv (PC.awaitPlay i s.nextAudio) inv hinv iv2 inv2 h2 with
              ⟨rfl, rfl⟩ | ⟨hne, h3⟩
            · simp at hp
            · exact List.mem_append.mpr
                (Or.inl (g.hist_blob iv2 inv2 i2 h3 hp hlt2))
          · intro iv2 h2
            rw [setPC_length] at h2
            exact List.mem_append.mpr (Or.inl (g.hist_zero iv2 h2))
          · intro iv2 i2 n2 h2
            rcases List.mem_append.mp h2 with h | h
            · rcases g.url_exit iv2 i2 n2 h with h3 | ⟨inv2, a2, h4, h5⟩
              · exact Or.inl h3
              · by_cases hne : iv2 = iv
                · subst hne
                  rw [h4] at hinv
                  have h6 := (Option.some.injEq _ _).mp hinv
                  subst h6
                  rw [hpc] at h5
                  simp at h5
                · refine Or.inr ⟨inv2, a2, ?_, h5⟩
                  rw [setPC_get_ne s.invs iv (PC.awaitPlay i s.nextAudio) iv2
                    (fun hx => hne hx.symm)]
                  exact h4
            · have hcu : iv2 = iv ∧ i2 = i := by
                simp only [List.mem_cons, List.mem_singleton] at h
                rcases h with h5 | h5 | h5 | h5
                · simp at h5
                · simp only [Act.createUrl.injEq] at h5
                  exact ⟨h5.1, h5.2.1⟩
                · simp at h5
                · simp at h5
              rw [hcu.1, hcu.2]
              exact Or.inr ⟨{ inv with pc := PC.awaitPlay i s.nextAudio },
                s.nextAudio,
                setPC_get_self s.invs iv (PC.awaitPlay i s.nextAudio) inv hinv, rfl⟩
          · unfold adjOK
            rw [adjGo_append]
            refine (Bool.and_eq_true _ _).mpr ⟨g.adj, ?_⟩
            refine adjGo_of_no_issue _ _ ?_
            intro a2 ha2
            simp at ha2
            rcases ha2 with rfl | rfl | rfl | rfl <;> rfl
          · rw [seenOK_append]
            refine (Bool.and_eq_true _ _).mpr ⟨g.seen, ?_⟩
            have hz : Act.fetchIssue iv 0 ∈ s.trace :=
              g.hist_zero iv (getElem?_lt s.invs iv inv hinv)
            by_cases hlt : i + 1 < inv.n
            · have hbm := g.hist_blob iv inv i hinv hpc hlt
              simp [seenOK, seenGood, hlt, hbm, hz, List.mem_append]
            · simp [seenOK, seenGood, hlt, hz, List.mem_append]
        · simp only [List.append_assoc, List.cons_append, List.nil_append]
          rw [if_neg hi0]
          simp only [List.append_assoc, List.cons_append, List.nil_append]
          refine ⟨?_, ?_, ?_, ?_, ?_, ?_, ?_, ?_, ?_, ?_, ?_, ?_, ?_, ?_, ?_⟩
          · intro iv2 inv2 h2
            rcases setPC_cases s.invs iv (PC.awaitPlay i s.nextAudio) inv hinv iv2 inv2 h2 with
              ⟨rfl, rfl⟩ | ⟨hne, h3⟩
            · exact g.tok_eq iv2 inv hinv
            · exact g.tok_eq iv2 inv2 h3
          · intro iv2 inv2 h2 hna
            rcases setPC_cases s.invs iv (PC.awaitPlay i s.nextAudio) inv hinv iv2 inv2 h2 with
              ⟨rfl, rfl⟩ | ⟨hne, h3⟩
            · exact g.active_tts iv2 inv hinv hna
            · exact g.active_tts iv2 inv2 h3 hna
          · intro t ht
            rw [setPC_length]
            exact g.tts_lt t ht
          · intro t ht
            rw [setPC_length]
            exact g.aborted_lt t ht
          · intro l hl
            rcases List.mem_append.mp hl with hl2 | hl2
            · obtain ⟨inv2, h2, h3⟩ := g.listener_tok l hl2
              obtain ⟨inv3, h4, h5⟩ :=
                setPC_back s.invs iv (PC.awaitPlay i s.nextAudio) inv hinv l.2.1 inv2 h2
              exact ⟨inv3, h4, h5.trans h3⟩
            · simp only [List.mem_singleton] at hl2
              subst hl2
              exact ⟨{ inv with pc := PC.awaitPlay i s.nextAudio },
                setPC_get_self s.invs iv (PC.awaitPlay i s.nextAudio) inv hinv, rfl⟩
          · intro iv2 inv2 i2 a2 h2 hp
            rcases setPC_cases s.invs iv (PC.awaitPlay i s.nextAudio) inv hinv iv2 inv2 h2 with
              ⟨rfl, rfl⟩ | ⟨hne, h3⟩
            · have hpi : PC.awaitPlay i s.nextAudio = PC.awaitPlay i2 a2 := hp
              have hi2 : i = i2 ∧ s.nextAudio = a2 := by
                cases hpi
                exact ⟨rfl, rfl⟩
              obtain ⟨rfl, rfl⟩ := hi2
              refine List.mem_append.mpr (Or.inr ?_)
              simp
            · exact List.mem_append.mpr
                (Or.inl (g.listener_present iv2 inv2 i2 a2 h3 hp))
          · intro iv2 inv2 i2 a2 h2 hp
            rcases setPC_cases s.invs iv (PC.awaitPlay i s.nextAudio) inv hinv iv2 inv2 h2 with
              ⟨rfl, rfl⟩ | ⟨hne, h3⟩
            · exact habm
            · exact g.play_unaborted iv2 inv2 i2 a2 h3 hp
          · have hplnil : s.playing = [] := by
              rcases g.playing_ok with h | ⟨ivo, invo, i2, a2, h2, hp, hna, hpl⟩
              · exact h
              · exfalso
                have e1 := g.active_tts ivo invo h2 hna
                have e2 := g.active_tts iv inv hinv habm
                rw [e1] at e2
                have e3 : invo.tok = inv.tok := (Option.some.injEq _ _).mp e2
                have e4 := g.tok_eq ivo invo h2
                have e5 := g.tok_eq iv inv hinv
                have e6 : ivo = iv := by omega
                subst e6
                rw [h2] at hinv
                have e7 := (Option.some.injEq _ _).mp hinv
                subst e7
                rw [hpc] at hp
                simp at hp
            refine Or.inr ⟨iv, { inv with pc := PC.awaitPlay i s.nextAudio },
              i, s.nextAudio,
              setPC_get_self s.invs iv (PC.awaitPlay i s.nextAudio) inv hinv,
              rfl, habm, ?_⟩
            rw [hplnil]
            rfl
          · intro iv2 inv2 h2
            rcases setPC_cases s.invs iv (PC.awaitPlay i s.nextAudio) inv hinv iv2 inv2 h2 with
              ⟨rfl, rfl⟩ | ⟨hne, h3⟩
            · have old := g.inflight_pc iv2 inv hinv
              rw [if_neg habm, hpc] at old
              rw [filter_filter_comm, old]
              by_cases hlt : i + 1 < inv.n <;>
                simp [pcInflight, hlt, habm, List.filter]
            · have old := g.inflight_pc iv2 inv2 h3
              rw [filter_key_of_imp _ _ _ ?_, old]
              intro p hpk
              by_cases hpe : p = (iv, i)
              · subst hpe
                simp at hpk
                exact absurd hpk.symm hne
              · simp [hpe]
          · intro p hp
            rw [setPC_length]
            exact g.inflight_scope p (List.mem_of_mem_filter hp)
          · intro iv2 inv2 i2 h2 hp hlt2
            rcases setPC_cases s.invs iv (PC.awaitPlay i s.nextAudio) inv hinv iv2 inv2 h2 with
              ⟨rfl, rfl⟩ | ⟨hne, h3⟩
            · simp at hp
            · exact List.mem_append.mpr
                (Or.inl (g.hist_blob iv2 inv2 i2 h3 hp hlt2))
          · intro iv2 h2
            rw [setPC_length] at h2
            exact List.mem_append.mpr (Or.inl (g.hist_zero iv2 h2))
          · intro iv2 i2 n2 h2
            rcases List.mem_append.mp h2 with h | h
            · rcases g.url_exit iv2 i2 n2 h with h3 | ⟨inv2, a2, h4, h5⟩
              · exact Or.inl h3
              · by_cases hne : iv2 = iv
                · subst hne
                  rw [h4] at hinv
                  have h6 := (Option.some.injEq _ _).mp hinv
                  subst h6
                  rw [hpc] at h5
                  simp at h5
                · refine Or.inr ⟨inv2, a2, ?_, h5⟩
                  rw [setPC_get_ne s.invs iv (PC.awaitPlay i s.nextAudio) iv2
                    (fun hx => hne hx.symm)]
                  exact h4
            · have hcu : iv2 = iv ∧ i2 = i := by
                simp only [List.mem_cons, List.mem_singleton] at h
                rcases h with h5 | h5 | h5
                · simp at h5
                · simp only [Act.createUrl.injEq] at h5
                  exact ⟨h5.1, h5.2.1⟩
                · simp at h5
              rw [hcu.1, hcu.2]
              exact Or.inr ⟨{ inv with pc := PC.awaitPlay i s.nextAudio },
                s.nextAudio,
                setPC_get_self s.invs iv (PC.awaitPlay i s.nextAudio) inv hinv, rfl⟩
          · unfold adjOK
            rw [adjGo_append]
            refine (Bool.and_eq_true _ _).mpr ⟨g.adj, ?_⟩
            refine adjGo_of_no_issue _ _ ?_
            intro a2 ha2
            simp at ha2
            rcases ha2 with rfl | rfl | rfl <;> rfl
          · rw [seenOK_append]
            refine (Bool.and_eq_true _ _).mpr ⟨g.seen, ?_⟩
            have hz : Act.fetchIssue iv 0 ∈ s.trace :=
              g.hist_zero iv (getElem?_lt s.invs iv inv hinv)
            by_cases hlt : i + 1 < inv.n
            · have hbm := g.hist_blob iv inv i hinv hpc hlt
              simp [seenOK, seenGood, hlt, hbm, hz, List.mem_append]
            · simp [seenOK, seenGood, hlt, hz, List.mem_append]
    next hpc => exact g

lemma good_playEndStep (s : Sys) (iv : Nat) (o : POut) (g : Good s) :
    Good (playEndStep s iv o) := by
  unfold playEndStep
  split
  next heq => exact g
  next inv hinv =>
    split
    next i aid hpc =>
      have habm : inv.tok ∉ s.aborted := g.play_unaborted iv inv i aid hinv hpc
      have hab : ¬ (s.aborted.contains inv.tok = true) := by simpa using habm
      simp only [List.append_assoc, List.cons_append, List.nil_append]
      rw [if_neg hab]
      by_cases hlt : i + 1 < inv.n
      · rw [if_pos hlt]
        refine ⟨?_, ?_, ?_, ?_, ?_, ?_, ?_, ?_, ?_, ?_, ?_, ?_, ?_, ?_, ?_⟩
        · intro iv2 inv2 h2
          rcases setPC_cases s.invs iv (PC.awaitFetch (i + 1)) inv hinv iv2 inv2 h2 with
            ⟨rfl, rfl⟩ | ⟨hne, h3⟩
          · exact g.tok_eq iv2 inv hinv
          · exact g.tok_eq iv2 inv2 h3
        · intro iv2 inv2 h2 hna
          rcases setPC_cases s.invs iv (PC.awaitFetch (i + 1)) inv hinv iv2 inv2 h2 with
            ⟨rfl, rfl⟩ | ⟨hne, h3⟩
          · exact g.active_tts iv2 inv hinv hna
          · exact g.active_tts iv2 inv2 h3 hna
        · intro t ht
          rw [setPC_length]
          exact g.tts_lt t ht
        · intro t ht
          rw [setPC_length]
          exact g.aborted_lt t ht
        · intro l hl
          obtain ⟨inv2, h2, h3⟩ := g.listener_tok l hl
          obtain ⟨inv3, h4, h5⟩ :=
            setPC_back s.invs iv (PC.awaitFetch (i + 1)) inv hinv l.2.1 inv2 h2
          exact ⟨inv3, h4, h5.trans h3⟩
        · intro iv2 inv2 i2 a2 h2 hp
          rcases setPC_cases s.invs iv (PC.awaitFetch (i + 1)) inv hinv iv2 inv2 h2 with
            ⟨rfl, rfl⟩ | ⟨hne, h3⟩
          · simp at hp
          · exact g.listener_present iv2 inv2 i2 a2 h3 hp
        · intro iv2 inv2 i2 a2 h2 hp
          rcases setPC_cases s.invs iv (PC.awaitFetch (i + 1)) inv hinv iv2 inv2 h2 with
            ⟨rfl, rfl⟩ | ⟨hne, h3⟩
          · simp at hp
          · exact g.play_unaborted iv2 inv2 i2 a2 h3 hp
        · have hplz : s.playing.filter (fun x => !(x = aid)) = [] := by
            rcases g.playing_ok with h | ⟨ivo, invo, i2, a2, h2, hp, hna, hpl⟩
            · rw [h]
              rfl
            · have e1 := g.active_tts ivo invo h2 hna
              have e2 := g.active_tts iv inv hinv habm
              rw [e1] at e2
              have e3 : invo.tok = inv.tok := (Option.some.injEq _ _).mp e2
              have e4 := g.tok_eq ivo invo h2
              have e5 := g.tok_eq iv inv hinv
              have e6 : ivo = iv := by omega
              subst e6
              rw [h2] at hinv
              have e7 := (Option.some.injEq _ _).mp hinv
              subst e7
              rw [hpc] at hp
              cases hp
              rw [hpl]
              simp
          exact Or.inl hplz
        · intro iv2 inv2 h2
          rcases setPC_cases s.invs iv (PC.awaitFetch (i + 1)) inv hinv iv2 inv2 h2 with
            ⟨rfl, rfl⟩ | ⟨hne, h3⟩
          · have old := g.inflight_pc iv2 inv hinv
            rw [if_neg habm, hpc] at old
            rw [old]
            simp [pcInflight, hlt, habm]
          · exact g.inflight_pc iv2 inv2 h3
        · intro p hp
          rw [setPC_length]
          exact g.inflight_scope p hp
        · intro iv2 inv2 i2 h2 hp hlt2
          rcases setPC_cases s.invs iv (PC.awaitFetch (i + 1)) inv hinv iv2 inv2 h2 with
            ⟨rfl, rfl⟩ | ⟨hne, h3⟩
          · simp at hp
          · exact List.mem_append.mpr
              (Or.inl (g.hist_blob iv2 inv2 i2 h3 hp hlt2))
        · intro iv2 h2
          rw [setPC_length] at h2
          exact List.mem_append.mpr (Or.inl (g.hist_zero iv2 h2))
        · intro iv2 i2 n2 h2
          have h2b : Act.createUrl iv2 i2 n2 ∈ s.trace := by
            rcases List.mem_append.mp h2 with h | h
            · exact h
            · simp at h
          rcases g.url_exit iv2 i2 n2 h2b with h3 | ⟨inv2, a2, h4, h5⟩
          · exact Or.inl (subset_insertRevoked (iv, i) s.revoked (iv2, i2) h3)
          · by_cases hne : iv2 = iv
            · subst hne
              rw [h4] at hinv
              have h6 := (Option.some.injEq _ _).mp hinv
              subst h6
              rw [hpc] at h5
              cases h5
              exact Or.inl ((mem_insertRevoked _ _ _).mpr (Or.inl rfl))
            · refine Or.inr ⟨inv2, a2, ?_, h5⟩
              rw [setPC_get_ne s.invs iv (PC.awaitFetch (i + 1)) iv2
                (fun hx => hne hx.symm)]
              exact h4
        · unfold adjOK
          rw [adjGo_append]
          refine (Bool.and_eq_true _ _).mpr ⟨g.adj, ?_⟩
          refine adjGo_of_no_issue _ _ ?_
          intro a2 ha2
          simp at ha2
          subst ha2
          rfl
        · rw [seenOK_append]
          refine (Bool.and_eq_true _ _).mpr ⟨g.seen, ?_⟩
          refine seenOK_of_no_ordered _ _ ?_
          intro a2 ha2
          simp at ha2
          subst ha2
          rfl
      · rw [if_neg hlt]
        refine ⟨?_, ?_, ?_, ?_, ?_, ?_, ?_, ?_, ?_, ?_, ?_, ?_, ?_, ?_, ?_⟩
        · intro iv2 inv2 h2
          rcases setPC_cases s.invs iv PC.finished inv hinv iv2 inv2 h2 with
            ⟨rfl, rfl⟩ | ⟨hne, h3⟩
          · exact g.tok_eq iv2 inv hinv
          · exact g.tok_eq iv2 inv2 h3
        · intro iv2 inv2 h2 hna
          rcases setPC_cases s.invs iv PC.finished inv hinv iv2 inv2 h2 with
            ⟨rfl, rfl⟩ | ⟨hne, h3⟩
          · exact g.active_tts iv2 inv hinv hna
          · exact g.active_tts iv2 inv2 h3 hna
        · intro t ht
          rw [setPC_length]
          exact g.tts_lt t ht
        · intro t ht
          rw [setPC_length]
          exact g.aborted_lt t ht
        · intro l hl
          obtain ⟨inv2, h2, h3⟩ := g.listener_tok l hl
          obtain ⟨inv3, h4, h5⟩ :=
            setPC_back s.invs iv PC.finished inv hinv l.2.1 inv2 h2
          exact ⟨inv3, h4, h5.trans h3⟩
        · intro iv2 inv2 i2 a2 h2 hp
          rcases setPC_cases s.invs iv PC.finished inv hinv iv2 inv2 h2 with
            ⟨rfl, rfl⟩ | ⟨hne, h3⟩
          · simp at hp
          · exact g.listener_present iv2 inv2 i2 a2 h3 hp
        · intro iv2 inv2 i2 a2 h2 hp
          rcases setPC_cases s.invs iv PC.finished inv hinv iv2 inv2 h2 with
            ⟨rfl, rfl⟩ | ⟨hne, h3⟩
          · simp at hp
          · exact g.play_unaborted iv2 inv2 i2 a2 h3 hp
        · have hplz : s.playing.filter (fun x => !(x = aid)) = [] := by
            rcases g.playing_ok with h | ⟨ivo, invo, i2, a2, h2, hp, hna, hpl⟩
            · rw [h]
              rfl
            · have e1 := g.active_tts ivo invo h2 hna
              have e2 := g.active_tts iv inv hinv habm
              rw [e1] at e2
              have e3 : invo.tok = inv.tok := (Option.some.injEq _ _).mp e2
              have e4 := g.tok_eq ivo invo h2
              have e5 := g.tok_eq iv inv hinv
              have e6 : ivo = iv := by omega
              subst e6
              rw [h2] at hinv
              have e7 := (Option.some.injEq _ _).mp hinv
              subst e7
              rw [hpc] at hp
              cases hp
              rw [hpl]
              simp
          exact Or.inl hplz
        · intro iv2 inv2 h2
          rcases setPC_cases s.invs iv PC.finished inv hinv iv2 inv2 h2 with
            ⟨rfl, rfl⟩ | ⟨hne, h3⟩
          · have old := g.inflight_pc iv2 inv hinv
            rw [if_neg habm, hpc] at old
            rw [old]
            simp [pcInflight, hlt, habm]
          · exact g.inflight_pc iv2 inv2 h3
        · intro p hp
          rw [setPC_length]
          exact g.inflight_scope p hp
        · intro iv2 inv2 i2 h2 hp hlt2
          rcases setPC_cases s.invs iv PC.finished inv hinv iv2 inv2 h2 with
            ⟨rfl, rfl⟩ | ⟨hne, h3⟩
          · simp at hp
          · exact List.mem_append.mpr
              (Or.inl (g.hist_blob iv2 inv2 i2 h3 hp hlt2))
        · intro iv2 h2
          rw [setPC_length] at h2
          exact List.mem_append.mpr (Or.inl (g.hist_zero iv2 h2))
        · intro iv2 i2 n2 h2
          have h2b : Act.createUrl iv2 i2 n2 ∈ s.trace := by
            rcases List.mem_append.mp h2 with h | h
            · exact h
            · simp at h
          rcases g.url_exit iv2 i2 n2 h2b with h3 | ⟨inv2, a2, h4, h5⟩
          · exact Or.inl (subset_insertRevoked (iv, i) s.revoked (iv2, i2) h3)
          · by_cases hne : iv2 = iv
            · subst hne
              rw [h4] at hinv
              have h6 := (Option.some.injEq _ _).mp hinv
              subst h6
              rw [hpc] at h5
              cases h5
              exact Or.inl ((mem_insertRevoked _ _ _).mpr (Or.inl rfl))
            · refine Or.inr ⟨inv2, a2, ?_, h5⟩
              rw [setPC_get_ne s.invs iv PC.finished iv2
                (fun hx => hne hx.symm)]
              exact h4
        · unfold adjOK
          rw [adjGo_append]
          refine (Bool.and_eq_true _ _).mpr ⟨g.adj, ?_⟩
          refine adjGo_of_no_issue _ _ ?_
          intro a2 ha2
          simp at ha2
          rcases ha2 with rfl | rfl <;> rfl
        · rw [seenOK_append]
          refine (Bool.and_eq_true _ _).mpr ⟨g.seen, ?_⟩
          refine seenOK_of_no_ordered _ _ ?_
          intro a2 ha2
          simp at ha2
          rcases ha2 with rfl | rfl <;> rfl
    next hpc => exact g

/-- A state change that keeps the narration bookkeeping (invocations,
aborted set, token, listeners, in-flight fetches, revocations) and only
filters the audible set to empty and appends benign trace entries preserves
the invariant. -/
lemma good_cosmetic (s s' : Sys) (g : Good s)
    (hinvs : s'.invs = s.invs) (hab : s'.aborted = s.aborted)
    (htts : s'.ttsAbort = s.ttsAbort) (hlis : s'.listeners = s.listeners)
    (hinf : s'.inflight = s.inflight) (hrev : s'.revoked = s.revoked)
    (hpl2 : s'.playing = [])
    (htr : ∃ e, s'.trace = s.trace ++ e ∧ ∀ a ∈ e, isIssue a = false ∧
      isOrdered a = false ∧ ∀ iv i n, a ≠ Act.createUrl iv i n) :
    Good s' := by
  obtain ⟨e, he, hprop⟩ := htr
  refine ⟨?_, ?_, ?_, ?_, ?_, ?_, ?_, ?_, ?_, ?_, ?_, ?_, ?_, ?_, ?_⟩
  · intro iv2 inv2 h2
    rw [hinvs] at h2
    exact g.tok_eq iv2 inv2 h2
  · intro iv2 inv2 h2 hna
    rw [hinvs] at h2
    rw [hab] at hna
    rw [htts]
    exact g.active_tts iv2 inv2 h2 hna
  · intro t2 ht
    rw [htts] at ht
    rw [hinvs]
    exact g.tts_lt t2 ht
  · intro t2 ht
    rw [hab] at ht
    rw [hinvs]
    exact g.aborted_lt t2 ht
  · intro l hl
    rw [hlis] at hl
    rw [hinvs]
    exact g.listener_tok l hl
  · intro iv2 inv2 i2 a2 h2 hp
    rw [hinvs] at h2
    rw [hlis]
    exact g.listener_present iv2 inv2 i2 a2 h2 hp
  · intro iv2 inv2 i2 a2 h2 hp
    rw [hinvs] at h2
    rw [hab]
    exact g.play_unaborted iv2 inv2 i2 a2 h2 hp
  · exact Or.inl hpl2
  · intro iv2 inv2 h2
    rw [hinvs] at h2
    rw [hinf, hab]
    exact g.inflight_pc iv2 inv2 h2
  · intro p hp
    rw [hinf] at hp
    rw [hinvs]
    exact g.inflight_scope p hp
  · intro iv2 inv2 i2 h2 hp hlt2
    rw [hinvs] at h2
    rw [he]
    exact List.mem_append.mpr (Or.inl (g.hist_blob iv2 inv2 i2 h2 hp hlt2))
  · intro iv2 h2
    rw [hinvs] at h2
    rw [he]
    exact List.mem_append.mpr (Or.inl (g.hist_zero iv2 h2))
  · intro iv2 i2 n2 h2
    rw [he] at h2
    rcases List.mem_append.mp h2 with h | h
    · rcases g.url_exit iv2 i2 n2 h with h3 | ⟨inv2, a2, h4, h5⟩
      · rw [hrev]
        exact Or.inl h3
      · rw [hinvs]
        exact Or.inr ⟨inv2, a2, h4, h5⟩
    · exact absurd rfl ((hprop _ h).2.2 iv2 i2 n2)
  · rw [he]
    unfold adjOK
    rw [adjGo_append]
    refine (Bool.and_eq_true _ _).mpr ⟨g.adj, ?_⟩
    exact adjGo_of_no_issue _ _ (fun a ha => (hprop a ha).1)
  · rw [he]
    rw [seenOK_append]
    refine (Bool.and_eq_true _ _).mpr ⟨g.seen, ?_⟩
    exact seenOK_of_no_ordered _ _ (fun a ha => (hprop a ha).2.1)

lemma resetActsGo_mem (k : Nat) (bs : List BtnPhase) (a : Act)
    (h : a ∈ resetActsGo k bs) : ∃ b, a = Act.resetBtn b := by
  induction bs generalizing k with
  | nil => simp [resetActsGo] at h
  | cons x xs ih =>
    simp only [resetActsGo] at h
    rcases List.mem_append.mp h with h | h
    · by_cases hx : x = BtnPhase.idle
      · rw [if_pos hx] at h
        simp at h
      · rw [if_neg hx] at h
        simp only [List.mem_singleton] at h
        exact ⟨k, h⟩
    · exact ih (k + 1) h

/-- The abort listeners fired by signalling token `t`. -/
def firedOf (s : Sys) (t : Nat) : List (Nat × Nat × Nat × Nat) :=
  s.listeners.filter (fun l => l.1 = t)

lemma abortApply_invs (s : Sys) (t : Nat) : (abortApply s t).invs =
    mapIdx (fun iv inv => if matchesFired (firedOf s t) iv inv then
      { inv with pc := PC.finished } else inv) s.invs := rfl

lemma abortApply_aborted (s : Sys) (t : Nat) :
    (abortApply s t).aborted = t :: s.aborted := rfl

lemma abortApply_ttsAbort (s : Sys) (t : Nat) :
    (abortApply s t).ttsAbort = none := rfl

lemma abortApply_currentAudio (s : Sys) (t : Nat) :
    (abortApply s t).currentAudio = s.currentAudio := rfl

lemma abortApply_listeners (s : Sys) (t : Nat) :
    (abortApply s t).listeners = s.listeners.filter (fun l => !(l.1 = t)) := rfl

lemma abortApply_playing (s : Sys) (t : Nat) :
    (abortApply s t).playing =
      s.playing.filter (fun x => !((firedOf s t).any (fun l => l.2.2.2 = x))) := rfl

lemma abortApply_revoked (s : Sys) (t : Nat) :
    (abortApply s t).revoked =
      (firedOf s t).foldl (fun r l => insertRevoked (l.2.1, l.2.2.1) r) s.revoked := rfl

lemma abortApply_inflight (s : Sys) (t : Nat) :
    (abortApply s t).inflight = s.inflight.filter
      (fun p => (s.invs[p.1]?).all (fun inv => !(inv.tok = t))) := rfl

lemma abortApply_btns (s : Sys) (t : Nat) :
    (abortApply s t).btns = s.btns := rfl

lemma abortApply_trace (s : Sys) (t : Nat) :
    (abortApply s t).trace = s.trace ++ [Act.sigAbort t] ++
      (firedOf s t).flatMap
        (fun l => [Act.pauseAudio l.2.2.2, Act.revokeUrl l.2.1 l.2.2.1]) := rfl

/-- Signalling the installed token preserves the invariant and silences all
playback: every invocation's token is now aborted, every audible audio had a
registered listener that paused it. -/
lemma good_abortApply (s : Sys) (t : Nat) (htts : s.ttsAbort = some t)
    (g : Good s) :
    Good (abortApply s t) ∧ (abortApply s t).playing = [] := by
  have hallab : ∀ (iv2 : Nat) (inv2 : Inv), s.invs[iv2]? = some inv2 →
      inv2.tok = t ∨ inv2.tok ∈ s.aborted := by
    intro iv2 inv2 h2
    by_cases hmem : inv2.tok ∈ s.aborted
    · exact Or.inr hmem
    · have hat := g.active_tts iv2 inv2 h2 hmem
      rw [htts] at hat
      exact Or.inl ((Option.some.injEq _ _).mp hat).symm
  have hplay_tok : ∀ (iv2 : Nat) (inv2 : Inv) (i a : Nat),
      s.invs[iv2]? = some inv2 → inv2.pc = PC.awaitPlay i a → inv2.tok = t := by
    intro iv2 inv2 i a h2 hp
    have hna := g.play_unaborted iv2 inv2 i a h2 hp
    rcases hallab iv2 inv2 h2 with h | h
    · exact h
    · exact absurd h hna
  have hfired_of_play : ∀ (iv2 : Nat) (inv2 : Inv) (i a : Nat),
      s.invs[iv2]? = some inv2 → inv2.pc = PC.awaitPlay i a →
      (inv2.tok, iv2, i, a) ∈ firedOf s t := by
    intro iv2 inv2 i a h2 hp
    have hlmem := g.listener_present iv2 inv2 i a h2 hp
    have htok := hplay_tok iv2 inv2 i a h2 hp
    unfold firedOf
    exact List.mem_filter.mpr ⟨hlmem, by simp [htok]⟩
  have hmatched : ∀ (iv2 : Nat) (inv2 : Inv) (i a : Nat),
      s.invs[iv2]? = some inv2 → inv2.pc = PC.awaitPlay i a →
      matchesFired (firedOf s t) iv2 inv2 = true := by
    intro iv2 inv2 i a h2 hp
    unfold matchesFired
    rw [List.any_eq_true]
    refine ⟨(inv2.tok, iv2, i, a), hfired_of_play iv2 inv2 i a h2 hp, ?_⟩
    simp [hp]
  have hunpack : ∀ (iv2 : Nat) (inv2 : Inv),
      (abortApply s t).invs[iv2]? = some inv2 →
      ∃ inv3 : Inv, s.invs[iv2]? = some inv3 ∧
        inv2 = (if matchesFired (firedOf s t) iv2 inv3 then
          { inv3 with pc := PC.finished } else inv3) := by
    intro iv2 inv2 h2
    rw [abortApply_invs, mapIdx_get] at h2
    cases ho : s.invs[iv2]? with
    | none =>
      rw [ho] at h2
      simp at h2
    | some inv3 =>
      rw [ho] at h2
      refine ⟨inv3, rfl, ?_⟩
      have h3 : some ((fun iv inv => if matchesFired (firedOf s t) iv inv then
          { inv with pc := PC.finished } else inv) iv2 inv3) = some inv2 := h2
      exact ((Option.some.injEq _ _).mp h3).symm
  have hback : ∀ (iv2 : Nat) (inv3 : Inv), s.invs[iv2]? = some inv3 →
      ∃ inv2 : Inv, (abortApply s t).invs[iv2]? = some inv2 ∧
        inv2.tok = inv3.tok := by
    intro iv2 inv3 ho
    refine ⟨(if matchesFired (firedOf s t) iv2 inv3 then
        { inv3 with pc := PC.finished } else inv3), ?_, ?_⟩
    · rw [abortApply_invs, mapIdx_get, ho]
      rfl
    · split <;> rfl
  have hplz : (abortApply s t).playing = [] := by
    rw [abortApply_playing]
    rcases g.playing_ok with h | ⟨ivo, invo, i2, a2, h2, hp, hna, hpl⟩
    · rw [h]
      rfl
    · have hfired := hfired_of_play ivo invo i2 a2 h2 hp
      have hany : (firedOf s t).any (fun l => l.2.2.2 = a2) = true := by
        rw [List.any_eq_true]
        exact ⟨(invo.tok, ivo, i2, a2), hfired, by simp⟩
      rw [hpl]
      simp [hany]
  refine ⟨⟨?_, ?_, ?_, ?_, ?_, ?_, ?_, ?_, ?_, ?_, ?_, ?_, ?_, ?_, ?_⟩, hplz⟩
  · intro iv2 inv2 h2
    obtain ⟨inv3, ho, rfl⟩ := hunpack iv2 inv2 h2
    have htk := g.tok_eq iv2 inv3 ho
    split <;> exact htk
  · intro iv2 inv2 h2 hna
    obtain ⟨inv3, ho, rfl⟩ := hunpack iv2 inv2 h2
    exfalso
    rw [abortApply_aborted] at hna
    have htok3 : (if matchesFired (firedOf s t) iv2 inv3 then
        { inv3 with pc := PC.finished } else inv3).tok = inv3.tok := by
      split <;> rfl
    rw [htok3] at hna
    simp only [List.mem_cons, not_or] at hna
    rcases hallab iv2 inv3 ho with h | h
    · exact hna.1 h
    · exact hna.2 h
  · intro t2 ht
    rw [abortApply_ttsAbort] at ht
    simp at ht
  · intro t2 ht
    rw [abortApply_aborted] at ht
    rw [abortApply_invs, mapIdx_length]
    rcases List.mem_cons.mp ht with rfl | h
    · exact g.tts_lt t2 htts
    · exact g.aborted_lt t2 h
  · intro l hl
    rw [abortApply_listeners] at hl
    have hl2 : l ∈ s.listeners := List.mem_of_mem_filter hl
    obtain ⟨inv3, h4, h5⟩ := g.listener_tok l hl2
    obtain ⟨inv2, h6, h7⟩ := hback l.2.1 inv3 h4
    exact ⟨inv2, h6, h7.trans h5⟩
  · intro iv2 inv2 i2 a2 h2 hp
    obtain ⟨inv3, ho, rfl⟩ := hunpack iv2 inv2 h2
    by_cases hm : matchesFired (firedOf s t) iv2 inv3 = true
    · rw [if_pos hm] at hp
      simp at hp
    · rw [if_neg hm] at hp
      exact absurd (hmatched iv2 inv3 i2 a2 ho hp) hm
  · intro iv2 inv2 i2 a2 h2 hp
    obtain ⟨inv3, ho, rfl⟩ := hunpack iv2 inv2 h2
    by_cases hm : matchesFired (firedOf s t) iv2 inv3 = true
    · rw [if_pos hm] at hp
      simp at hp
    · rw [if_neg hm] at hp
      exact absurd (hmatched iv2 inv3 i2 a2 ho hp) hm
  · exact Or.inl hplz
  · intro iv2 inv2 h2
    obtain ⟨inv3, ho, rfl⟩ := hunpack iv2 inv2 h2
    have htok3 : (if matchesFired (firedOf s t) iv2 inv3 then
        { inv3 with pc := PC.finished } else inv3).tok = inv3.tok := by
      split <;> rfl
    have hmem : (if matchesFired (firedOf s t) iv2 inv3 then
        { inv3 with pc := PC.finished } else inv3).tok ∈
        (abortApply s t).aborted := by
      rw [htok3, abortApply_aborted]
      rcases hallab iv2 inv3 ho with h | h
      · exact List.mem_cons.mpr (Or.inl h)
      · exact List.mem_cons_of_mem t h
    rw [if_pos hmem, abortApply_inflight]
    rcases hallab iv2 inv3 ho with h | h
    · rw [filter_filter_comm]
      refine List.filter_eq_nil_iff.mpr ?_
      intro p hpmem
      have hp1 : p.1 = iv2 := by
        have hf := List.of_mem_filter hpmem
        simpa using hf
      rw [hp1, ho]
      simp [h]
    · have old := g.inflight_pc iv2 inv3 ho
      rw [if_pos h] at old
      rw [filter_filter_comm, old]
      rfl
  · intro p hp
    rw [abortApply_inflight] at hp
    rw [abortApply_invs, mapIdx_length]
    exact g.inflight_scope p (List.mem_of_mem_filter hp)
  · intro iv2 inv2 i2 h2 hp hlt2
    obtain ⟨inv3, ho, rfl⟩ := hunpack iv2 inv2 h2
    rw [abortApply_trace]
    by_cases hm : matchesFired (firedOf s t) iv2 inv3 = true
    · rw [if_pos hm] at hp
      simp at hp
    · rw [if_neg hm] at hp hlt2
      exact List.mem_append.mpr (Or.inl (List.mem_append.mpr (Or.inl
        (g.hist_blob iv2 inv3 i2 ho hp hlt2))))
  · intro iv2 h2
    rw [abortApply_invs, mapIdx_length] at h2
    rw [abortApply_trace]
    exact List.mem_append.mpr (Or.inl (List.mem_append.mpr (Or.inl
      (g.hist_zero iv2 h2))))
  · intro iv2 i2 n2 h2
    rw [abortApply_trace] at h2
    have h2b : Act.createUrl iv2 i2 n2 ∈ s.trace := by
      rcases List.mem_append.mp h2 with h | h
      · rcases List.mem_append.mp h with h | h
        · exact h
        · simp at h
      · exfalso
        rcases List.mem_flatMap.mp h with ⟨l, hl, hin⟩
        simp at hin
    rcases g.url_exit iv2 i2 n2 h2b with h3 | ⟨inv2, a2, h4, h5⟩
    · refine Or.inl ?_
      rw [abortApply_revoked]
      exact (mem_foldl_insertRevoked _ _ _).mpr (Or.inl h3)
    · refine Or.inl ?_
      rw [abortApply_revoked]
      refine (mem_foldl_insertRevoked _ _ _).mpr (Or.inr ?_)
      exact ⟨(inv2.tok, iv2, i2, a2), hfired_of_play iv2 inv2 i2 a2 h4 h5, rfl⟩
  · rw [abortApply_trace]
    unfold adjOK
    rw [List.append_assoc, adjGo_append]
    refine (Bool.and_eq_true _ _).mpr ⟨g.adj, ?_⟩
    refine adjGo_of_no_issue _ _ ?_
    intro a2 ha2
    rcases List.mem_append.mp ha2 with h | h
    · simp only [List.mem_singleton] at h
      subst h
      rfl
    · rcases List.mem_flatMap.mp h with ⟨l, hl, hin⟩
      simp at hin
      rcases hin with rfl | rfl
      · rfl
      · rfl
  · rw [abortApply_trace]
    rw [List.append_assoc, seenOK_append]
    refine (Bool.and_eq_true _ _).mpr ⟨g.seen, ?_⟩
    refine seenOK_of_no_ordered _ _ ?_
    intro a2 ha2
    rcases List.mem_append.mp ha2 with h | h
    · simp only [List.mem_singleton] at h
      subst h
      rfl
    · rcases List.mem_flatMap.mp h with ⟨l, hl, hin⟩
      simp at hin
      rcases hin with rfl | rfl
      · rfl
      · rfl

lemma pauseCur_ttsAbort (s : Sys) : (pauseCur s).ttsAbort = s.ttsAbort := by
  unfold pauseCur
  cases s.currentAudio <;> rfl

lemma pauseCur_invs (s : Sys) : (pauseCur s).invs = s.invs := by
  unfold pauseCur
  cases s.currentAudio <;> rfl

lemma pauseCur_aborted (s : Sys) : (pauseCur s).aborted = s.aborted := by
  unfold pauseCur
  cases s.currentAudio <;> rfl

lemma pauseCur_listeners (s : Sys) : (pauseCur s).listeners = s.listeners := by
  unfold pauseCur
  cases s.currentAudio <;> rfl

lemma pauseCur_inflight (s : Sys) : (pauseCur s).inflight = s.inflight := by
  unfold pauseCur
  cases s.currentAudio <;> rfl

lemma pauseCur_revoked (s : Sys) : (pauseCur s).revoked = s.revoked := by
  unfold pauseCur
  cases s.currentAudio <;> rfl

lemma pauseCur_btns (s : Sys) : (pauseCur s).btns = s.btns := by
  unfold pauseCur
  cases s.currentAudio <;> rfl

lemma pauseCur_currentAudio (s : Sys) : (pauseCur s).currentAudio = none := by
  unfold pauseCur
  cases hca : s.currentAudio with
  | none => exact hca
  | some a => rfl

lemma pauseCur_playing_nil (s : Sys) (h : s.playing = []) :
    (pauseCur s).playing = [] := by
  unfold pauseCur
  cases s.currentAudio <;> simp [h]

lemma pauseCur_trace (s : Sys) : (pauseCur s).trace = s.trace ++
    (match s.currentAudio with
     | none => []
     | some a => [Act.pauseAudio a]) := by
  cases hca : s.currentAudio <;> unfold pauseCur <;> rw [hca] <;> simp

lemma resetBtns_ttsAbort (s : Sys) : (resetBtns s).ttsAbort = s.ttsAbort := rfl

lemma resetBtns_invs (s : Sys) : (resetBtns s).invs = s.invs := rfl

lemma resetBtns_aborted (s : Sys) : (resetBtns s).aborted = s.aborted := rfl

lemma resetBtns_listeners (s : Sys) : (resetBtns s).listeners = s.listeners := rfl

lemma resetBtns_inflight (s : Sys) : (resetBtns s).inflight = s.inflight := rfl

lemma resetBtns_revoked (s : Sys) : (resetBtns s).revoked = s.revoked := rfl

lemma resetBtns_playing (s : Sys) : (resetBtns s).playing = s.playing := rfl

lemma resetBtns_currentAudio (s : Sys) :
    (resetBtns s).currentAudio = s.currentAudio := rfl

lemma resetBtns_btns (s : Sys) :
    (resetBtns s).btns = s.btns.map (fun _ => BtnPhase.idle) := rfl

lemma resetBtns_trace (s : Sys) :
    (resetBtns s).trace = s.trace ++ resetActs s.btns := rfl

lemma good_pauseCur (s : Sys) (g : Good s) (hpl : s.playing = []) :
    Good (pauseCur s) := by
  unfold pauseCur
  cases hca : s.currentAudio with
  | none => exact g
  | some a =>
    refine good_cosmetic s _ g rfl rfl rfl rfl rfl rfl ?_
      ⟨[Act.pauseAudio a], rfl, ?_⟩
    · simp [hpl]
    · intro a2 ha2
      simp at ha2
      subst ha2
      exact ⟨rfl, rfl, fun iv i n h => Act.noConfusion h⟩

lemma good_resetBtns (s : Sys) (g : Good s) (hpl : s.playing = []) :
    Good (resetBtns s) := by
  refine good_cosmetic s _ g rfl rfl rfl rfl rfl rfl hpl
    ⟨resetActs s.btns, rfl, ?_⟩
  intro a2 ha2
  obtain ⟨b, rfl⟩ := resetActsGo_mem 0 s.btns a2 ha2
  exact ⟨rfl, rfl, fun iv i n h => Act.noConfusion h⟩

lemma allAborted_of_ttsNone (s : Sys) (g : Good s) (h : s.ttsAbort = none) :
    ∀ (iv2 : Nat) (inv2 : Inv), s.invs[iv2]? = some inv2 →
      inv2.tok ∈ s.aborted := by
  intro iv2 inv2 h2
  by_cases hm : inv2.tok ∈ s.aborted
  · exact hm
  · have hat := g.active_tts iv2 inv2 h2 hm
    rw [h] at hat
    simp at hat

lemma no_play_of_ttsNone (s : Sys) (g : Good s) (h : s.ttsAbort = none) :
    ∀ (iv2 : Nat) (inv2 : Inv) (i a : Nat), s.invs[iv2]? = some inv2 →
      inv2.pc ≠ PC.awaitPlay i a := by
  intro iv2 inv2 i a h2 hp
  exact g.play_unaborted iv2 inv2 i a h2 hp
    (allAborted_of_ttsNone s g h iv2 inv2 h2)

/-- `stopTTS` preserves the invariant, clears the token and silences all
playback. -/
lemma good_stopTTS (s : Sys) (g : Good s) :
    Good (stopTTS s) ∧ (stopTTS s).ttsAbort = none ∧
      (stopTTS s).playing = [] := by
  unfold stopTTS
  cases htts : s.ttsAbort with
  | none =>
    have hpl : s.playing = [] := by
      rcases g.playing_ok with h | ⟨ivo, invo, i2, a2, h2, hp, hna, hpl2⟩
      · exact h
      · have hat := g.active_tts ivo invo h2 hna
        rw [htts] at hat
        simp at hat
    have g1 := good_pauseCur s g hpl
    have hpl1 : (pauseCur s).playing = [] := pauseCur_playing_nil s hpl
    refine ⟨good_resetBtns (pauseCur s) g1 hpl1, ?_, ?_⟩
    · rw [resetBtns_ttsAbort, pauseCur_ttsAbort, htts]
    · rw [resetBtns_playing]
      exact hpl1
  | some t =>
    obtain ⟨g1, hpl1⟩ := good_abortApply s t htts g
    have g2 := good_pauseCur (abortApply s t) g1 hpl1
    have hpl2 : (pauseCur (abortApply s t)).playing = [] :=
      pauseCur_playing_nil (abortApply s t) hpl1
    refine ⟨good_resetBtns (pauseCur (abortApply s t)) g2 hpl2, ?_, ?_⟩
    · rw [resetBtns_ttsAbort, pauseCur_ttsAbort, abortApply_ttsAbort]
    · rw [resetBtns_playing]
      exact hpl2

/-- Starting a narration preserves the invariant: the teardown left every
older token aborted and nothing audible, so the fresh invocation is the only
active one. -/
lemma good_playStep (s : Sys) (b : Nat) (text : List Char) (g : Good s) :
    Good (playStep s b text) := by
  unfold playStep
  by_cases hb : b < s.btns.length
  · rw [if_pos hb]
    obtain ⟨g1, htts1, hpl1⟩ := good_stopTTS s g
    have hall := allAborted_of_ttsNone (stopTTS s) g1 htts1
    have hnop := no_play_of_ttsNone (stopTTS s) g1 htts1
    have hfresh : (stopTTS s).invs.length ∉ (stopTTS s).aborted := by
      intro hmem
      exact absurd (g1.aborted_lt _ hmem) (lt_irrefl _)
    have hgets : ∀ (iv2 : Nat) (inv2 : Inv),
        ((stopTTS s).invs ++ [(⟨(stopTTS s).invs.length, b,
          (splitBySentence text).length, PC.awaitFetch 0⟩ : Inv)])[iv2]? =
          some inv2 →
        ((stopTTS s).invs[iv2]? = some inv2 ∧ iv2 < (stopTTS s).invs.length) ∨
        (iv2 = (stopTTS s).invs.length ∧
          inv2 = ⟨(stopTTS s).invs.length, b,
            (splitBySentence text).length, PC.awaitFetch 0⟩) := by
      intro iv2 inv2 h2
      by_cases hlt : iv2 < (stopTTS s).invs.length
      · rw [List.getElem?_append_left hlt] at h2
        exact Or.inl ⟨h2, hlt⟩
      · have hle : (stopTTS s).invs.length ≤ iv2 := Nat.le_of_not_lt hlt
        rw [List.getElem?_append_right hle] at h2
        have h0 : iv2 - (stopTTS s).invs.length = 0 := by
          cases hd : iv2 - (stopTTS s).invs.length with
          | zero => rfl
          | succ k =>
            rw [hd] at h2
            simp at h2
        rw [h0] at h2
        have h3 : some (⟨(stopTTS s).invs.length, b,
            (splitBySentence text).length, PC.awaitFetch 0⟩ : Inv) =
            some inv2 := h2
        exact Or.inr ⟨by omega, ((Option.some.injEq _ _).mp h3).symm⟩
    refine ⟨?_, ?_, ?_, ?_, ?_, ?_, ?_, ?_, ?_, ?_, ?_, ?_, ?_, ?_, ?_⟩
    · intro iv2 inv2 h2
      rcases hgets iv2 inv2 h2 with ⟨h2old, hlt⟩ | ⟨h7, h8⟩
      · exact g1.tok_eq iv2 inv2 h2old
      · subst h8
        subst h7
        rfl
    · intro iv2 inv2 h2 hna
      rcases hgets iv2 inv2 h2 with ⟨h2old, hlt⟩ | ⟨h7, h8⟩
      · exact absurd (hall iv2 inv2 h2old) hna
      · subst h8
        rfl
    · intro t2 ht
      have h3 : (stopTTS s).invs.length = t2 := (Option.some.injEq _ _).mp ht
      rw [List.length_append, List.length_singleton]
      omega
    · intro t2 ht
      have h3 := g1.aborted_lt t2 ht
      rw [List.length_append, List.length_singleton]
      omega
    · intro l hl
      obtain ⟨inv3, h4, h5⟩ := g1.listener_tok l hl
      refine ⟨inv3, ?_, h5⟩
      rw [List.getElem?_append_left (getElem?_lt (stopTTS s).invs l.2.1 inv3 h4)]
      exact h4
    · intro iv2 inv2 i2 a2 h2 hp
      rcases hgets iv2 inv2 h2 with ⟨h2old, hlt⟩ | ⟨h7, h8⟩
      · exact absurd hp (hnop iv2 inv2 i2 a2 h2old)
      · rw [h8] at hp
        simp at hp
    · intro iv2 inv2 i2 a2 h2 hp
      rcases hgets iv2 inv2 h2 with ⟨h2old, hlt⟩ | ⟨h7, h8⟩
      · exact absurd hp (hnop iv2 inv2 i2 a2 h2old)
      · rw [h8] at hp
        simp at hp
    · exact Or.inl hpl1
    · intro iv2 inv2 h2
      rcases hgets iv2 inv2 h2 with ⟨h2old, hlt⟩ | ⟨h7, h8⟩
      · have old := g1.inflight_pc iv2 inv2 h2old
        rw [if_pos (hall iv2 inv2 h2old)] at old
        have hne : ¬ ((((stopTTS s).invs.length, 0) : Nat × Nat).1 = iv2) := by
          intro hh
          have hh2 : (stopTTS s).invs.length = iv2 := hh
          omega
        rw [filter_key_append, old, if_pos (hall iv2 inv2 h2old), if_neg hne]
        rfl
      · subst h8
        subst h7
        have hTnil : (stopTTS s).inflight.filter
            (fun p => p.1 = (stopTTS s).invs.length) = [] := by
          refine List.filter_eq_nil_iff.mpr ?_
          intro p hp
          have hsc := g1.inflight_scope p hp
          simp only [decide_eq_true_eq]
          omega
        rw [filter_key_append, hTnil, if_neg hfresh]
        rw [if_pos rfl]
        rfl
    · intro p hp
      rw [List.length_append, List.length_singleton]
      rcases List.mem_append.mp hp with h | h
      · have h3 := g1.inflight_scope p h
        omega
      · simp only [List.mem_singleton] at h
        subst h
        exact Nat.lt_succ_self _
    · intro iv2 inv2 i2 h2 hp hlt2
      rcases hgets iv2 inv2 h2 with ⟨h2old, hlt⟩ | ⟨h7, h8⟩
      · exact List.mem_append.mpr
          (Or.inl (g1.hist_blob iv2 inv2 i2 h2old hp hlt2))
      · rw [h8] at hp
        simp at hp
    · intro iv2 h2
      rw [List.length_append, List.length_singleton] at h2
      by_cases hlt : iv2 < (stopTTS s).invs.length
      · exact List.mem_append.mpr (Or.inl (g1.hist_zero iv2 hlt))
      · have h7 : iv2 = (stopTTS s).invs.length := by omega
        subst h7
        exact List.mem_append.mpr (Or.inr (by simp))
    · intro iv2 i2 n2 h2
      have h2b : Act.createUrl iv2 i2 n2 ∈ (stopTTS s).trace := by
        rcases List.mem_append.mp h2 with h | h
        · exact h
        · simp at h
      rcases g1.url_exit iv2 i2 n2 h2b with h3 | ⟨inv2, a2, h4, h5⟩
      · exact Or.inl h3
      · exact absurd h5 (hnop iv2 inv2 i2 a2 h4)
    · unfold adjOK
      rw [adjGo_append]
      refine (Bool.and_eq_true _ _).mpr ⟨g1.adj, ?_⟩
      simp [adjGo, adjBad]
    · rw [seenOK_append]
      refine (Bool.and_eq_true _ _).mpr ⟨g1.seen, ?_⟩
      refine seenOK_of_no_ordered _ _ ?_
      intro a2 ha2
      simp at ha2
      rcases ha2 with rfl | rfl <;> rfl
  · rw [if_neg hb]
    exact g

lemma good_step (s : Sys) (c : Cmd) (g : Good s) : Good (step s c) := by
  cases c with
  | play b text => exact good_playStep s b text g
  | stop => exact (good_stopTTS s g).1
  | fetchRes iv ok => exact good_fetchStep s iv ok g
  | blobRes iv => exact good_blobStep s iv g
  | playEnd iv o => exact good_playEndStep s iv o g

lemma good_run (s : Sys) (cmds : List Cmd) (g : Good s) : Good (run s cmds) := by
  induction cmds generalizing s with
  | nil => exact g
  | cons c cs ih => exact ih (step s c) (good_step s c g)

/-- Every reachable state of the narration machine satisfies the inductive
invariant. -/
lemma reachable_good (s : Sys) (h : Reachable s) : Good s := by
  obtain ⟨k, cmds, hrun⟩ := h
  rw [← hrun]
  exact good_run (init k) cmds (good_init k)

lemma stopTTS_invs_length (s : Sys) :
    (stopTTS s).invs.length = s.invs.length := by
  unfold stopTTS
  rw [resetBtns_invs, pauseCur_invs]
  cases htts : s.ttsAbort with
  | none => rfl
  | some t => rw [abortApply_invs, mapIdx_length]

lemma stopTTS_btns (s : Sys) :
    (stopTTS s).btns = s.btns.map (fun _ => BtnPhase.idle) := by
  unfold stopTTS
  rw [resetBtns_btns, pauseCur_btns]
  cases htts : s.ttsAbort with
  | none => rfl
  | some t => rw [abortApply_btns]

lemma stopTTS_currentAudio (s : Sys) : (stopTTS s).currentAudio = none := by
  unfold stopTTS
  rw [resetBtns_currentAudio, pauseCur_currentAudio]

lemma stopTTS_trace (s : Sys) : (stopTTS s).trace = s.trace ++ stopSeg s := by
  unfold stopTTS stopSeg
  rw [resetBtns_trace, pauseCur_trace, pauseCur_btns]
  cases htts : s.ttsAbort with
  | none =>
    cases hca : s.currentAudio <;> simp
  | some t =>
    rw [abortApply_trace, abortApply_currentAudio, abortApply_btns]
    cases hca : s.currentAudio <;> simp [firedOf]

lemma stopTTS_aborted (s : Sys) : (stopTTS s).aborted =
    (match s.ttsAbort with
     | none => s.aborted
     | some t => t :: s.aborted) := by
  unfold stopTTS
  rw [resetBtns_aborted, pauseCur_aborted]
  cases htts : s.ttsAbort with
  | none => rfl
  | some t => rw [abortApply_aborted]

lemma stopTTS_aborts_all (s : Sys) (g : Good s) :
    ∀ (iv : Nat) (inv : Inv), s.invs[iv]? = some inv →
      inv.tok ∈ (stopTTS s).aborted := by
  intro iv inv hinv
  rw [stopTTS_aborted]
  cases htts : s.ttsAbort with
  | none => exact allAborted_of_ttsNone s g htts iv inv hinv
  | some t =>
    by_cases hm : inv.tok ∈ s.aborted
    · exact List.mem_cons_of_mem t hm
    · have hat := g.active_tts iv inv hinv hm
      rw [htts] at hat
      have he : t = inv.tok := (Option.some.injEq _ _).mp hat
      rw [← he]
      exact List.mem_cons_self t s.aborted

lemma matchesFired_false (fired : List (Nat × Nat × Nat × Nat)) (iv : Nat)
    (inv : Inv) (h : ∀ i a, inv.pc ≠ PC.awaitPlay i a) :
    matchesFired fired iv inv = false := by
  unfold matchesFired
  rw [List.any_eq_false]
  intro l hl
  cases hpc : inv.pc with
  | awaitPlay i a => exact absurd hpc (h i a)
  | awaitFetch i => simp [hpc]
  | awaitBlob i => simp [hpc]
  | finished => simp [hpc]

lemma stopTTS_get_keep (s : Sys) (iv : Nat) (inv : Inv)
    (hinv : s.invs[iv]? = some inv) (h : ∀ i a, inv.pc ≠ PC.awaitPlay i a) :
    (stopTTS s).invs[iv]? = some inv := by
  unfold stopTTS
  rw [resetBtns_invs, pauseCur_invs]
  cases htts : s.ttsAbort with
  | none => exact hinv
  | some t =>
    rw [abortApply_invs, mapIdx_get, hinv]
    have hm := matchesFired_false (firedOf s t) iv inv h
    simp [hm]

lemma stopTTS_inflight_nil (s : Sys) (g : Good s) :
    (stopTTS s).inflight = [] := by
  obtain ⟨g1, htts1, hpl1⟩ := good_stopTTS s g
  have hall := allAborted_of_ttsNone (stopTTS s) g1 htts1
  refine List.eq_nil_iff_forall_not_mem.mpr ?_
  intro p hp
  have hsc := g1.inflight_scope p hp
  have hinv : (stopTTS s).invs[p.1]? = some ((stopTTS s).invs[p.1]) :=
    List.getElem?_eq_getElem hsc
  have hpc := g1.inflight_pc p.1 _ hinv
  rw [if_pos (hall p.1 _ hinv)] at hpc
  have hmem : p ∈ (stopTTS s).inflight.filter (fun q => q.1 = p.1) :=
    List.mem_filter.mpr ⟨hp, by simp⟩
  rw [hpc] at hmem
  simp at hmem

/-- Acts that fetch, decode or play a chunk of invocation `iv` — the acts
that must never occur again after its narration was aborted with an error. -/
def isProgress (iv : Nat) (a : Act) : Bool :=
  match a with
  | Act.fetchIssue iv2 _ => iv2 = iv
  | Act.fetchOk iv2 _ => iv2 = iv
  | Act.blobDone iv2 _ => iv2 = iv
  | Act.createUrl iv2 _ _ => iv2 = iv
  | Act.playStart iv2 _ _ => iv2 = iv
  | _ => false

lemma stopSeg_no_progress (s : Sys) (iv : Nat) :
    ∀ a ∈ stopSeg s, isProgress iv a = false := by
  intro a ha
  unfold stopSeg at ha
  rcases List.mem_append.mp ha with h | h
  · rcases List.mem_append.mp h with h | h
    · cases htts : s.ttsAbort with
      | none =>
        rw [htts] at h
        simp at h
      | some t =>
        rw [htts] at h
        rcases List.mem_cons.mp h with rfl | h2
        · rfl
        · rcases List.mem_flatMap.mp h2 with ⟨l, hl, hin⟩
          simp at hin
          rcases hin with rfl | rfl <;> rfl
    · cases hca : s.currentAudio with
      | none =>
        rw [hca] at h
        simp at h
      | some a2 =>
        rw [hca] at h
        simp only [List.mem_singleton] at h
        subst h
        rfl
  · obtain ⟨b, rfl⟩ := resetActsGo_mem 0 s.btns a h
    rfl

lemma fetchStep_finished (s : Sys) (iv2 : Nat) (ok : Bool) (iv : Nat)
    (inv : Inv) (hinv : s.invs[iv]? = some inv)
    (hfin : inv.pc = PC.finished) :
    ∃ (invf : Inv) (ext : List Act),
      (fetchStep s iv2 ok).invs[iv]? = some invf ∧ invf.pc = PC.finished ∧
      (fetchStep s iv2 ok).trace = s.trace ++ ext ∧
      ∀ a ∈ ext, isProgress iv a = false := by
  unfold fetchStep
  split
  next heq => exact ⟨inv, [], hinv, hfin, by simp, by simp⟩
  next inv' hinv' =>
    split
    next i hpc =>
      have hne : iv2 ≠ iv := by
        intro he
        subst he
        rw [hinv] at hinv'
        have h3 := (Option.some.injEq _ _).mp hinv'
        subst h3
        rw [hfin] at hpc
        cases hpc
      by_cases hab : s.aborted.contains inv'.tok = true
      · rw [if_pos hab]
        refine ⟨inv, [], ?_, hfin, by simp, by simp⟩
        rw [setPC_get_ne _ _ _ _ hne]
        exact hinv
      · rw [if_neg hab]
        cases ok with
        | true =>
          rw [if_pos rfl]
          by_cases hlt : i + 1 < inv'.n
          · rw [if_pos hlt]
            simp only [List.append_assoc, List.cons_append, List.nil_append]
            refine ⟨inv, [Act.fetchOk iv2 i, Act.fetchIssue iv2 (i + 1)],
              ?_, hfin, rfl, ?_⟩
            · rw [setPC_get_ne _ _ _ _ hne]
              exact hinv
            · intro a ha
              simp at ha
              rcases ha with rfl | rfl <;> simp [isProgress, hne]
          · rw [if_neg hlt]
            refine ⟨inv, [Act.fetchOk iv2 i], ?_, hfin, rfl, ?_⟩
            · rw [setPC_get_ne _ _ _ _ hne]
              exact hinv
            · intro a ha
              simp at ha
              subst ha
              simp [isProgress, hne]
        | false =>
          rw [if_neg (by simp)]
          refine ⟨inv, [Act.fetchFail iv2 i, Act.errorReported iv2,
            Act.resetBtn inv'.btn], ?_, hfin, rfl, ?_⟩
          · rw [setPC_get_ne _ _ _ _ hne]
            exact hinv
          · intro a ha
            simp at ha
            rcases ha with rfl | rfl | rfl <;> rfl
    next hpc => exact ⟨inv, [], hinv, hfin, by simp, by simp⟩

lemma blobStep_finished (s : Sys) (iv2 iv : Nat) (inv : Inv)
    (hinv : s.invs[iv]? = some inv) (hfin : inv.pc = PC.finished) :
    ∃ (invf : Inv) (ext : List Act),
      (blobStep s iv2).invs[iv]? = some invf ∧ invf.pc = PC.finished ∧
      (blobStep s iv2).trace = s.trace ++ ext ∧
      ∀ a ∈ ext, isProgress iv a = false := by
  unfold blobStep
  split
  next heq => exact ⟨inv, [], hinv, hfin, by simp, by simp⟩
  next inv' hinv' =>
    split
    next i hpc =>
      have hne : iv2 ≠ iv := by
        intro he
        subst he
        rw [hinv] at hinv'
        have h3 := (Option.some.injEq _ _).mp hinv'
        subst h3
        rw [hfin] at hpc
        cases hpc
      by_cases hab : s.aborted.contains inv'.tok = true
      · rw [if_pos hab]
        refine ⟨inv, [], ?_, hfin, by simp, by simp⟩
        rw [setPC_get_ne _ _ _ _ hne]
        exact hinv
      · rw [if_neg hab]
        by_cases hi0 : i = 0
        · simp only [List.append_assoc, List.cons_append, List.nil_append]
          rw [if_pos hi0]
          simp only [List.append_assoc, List.cons_append, List.nil_append]
          refine ⟨inv, [Act.blobDone iv2 i, Act.createUrl iv2 i inv'.n,
            Act.setPlaying inv'.btn, Act.playStart iv2 i s.nextAudio],
            ?_, hfin, rfl, ?_⟩
          · rw [setPC_get_ne _ _ _ _ hne]
            exact hinv
          · intro a ha
            simp at ha
            rcases ha with rfl | rfl | rfl | rfl <;> simp [isProgress, hne]
        · simp only [List.append_assoc, List.cons_append, List.nil_append]
          rw [if_neg hi0]
          simp only [List.append_assoc, List.cons_append, List.nil_append]
          refine ⟨inv, [Act.blobDone iv2 i, Act.createUrl iv2 i inv'.n,
            Act.playStart iv2 i s.nextAudio], ?_, hfin, rfl, ?_⟩
          · rw [setPC_get_ne _ _ _ _ hne]
            exact hinv
          · intro a ha
            simp at ha
            rcases ha with rfl | rfl | rfl <;> simp [isProgress, hne]
    next hpc => exact ⟨inv, [], hinv, hfin, by simp, by simp⟩

lemma playEndStep_finished (s : Sys) (iv2 : Nat) (o : POut) (iv : Nat)
    (inv : Inv) (hinv : s.invs[iv]? = some inv)
    (hfin : inv.pc = PC.finished) :
    ∃ (invf : Inv) (ext : List Act),
      (playEndStep s iv2 o).invs[iv]? = some invf ∧ invf.pc = PC.finished ∧
      (playEndStep s iv2 o).trace = s.trace ++ ext ∧
      ∀ a ∈ ext, isProgress iv a = false := by
  unfold playEndStep
  split
  next heq => exact ⟨inv, [], hinv, hfin, by simp, by simp⟩
  next inv' hinv' =>
    split
    next i aid hpc =>
      have hne : iv2 ≠ iv := by
        intro he
        subst he
        rw [hinv] at hinv'
        have h3 := (Option.some.injEq _ _).mp hinv'
        subst h3
        rw [hfin] at hpc
        cases hpc
      simp only [List.append_assoc, List.cons_append, List.nil_append]
      by_cases hab : s.aborted.contains inv'.tok = true
      · rw [if_pos hab]
        refine ⟨inv, [Act.revokeUrl iv2 i], ?_, hfin, rfl, ?_⟩
        · rw [setPC_get_ne _ _ _ _ hne]
          exact hinv
        · intro a ha
          simp at ha
          subst ha
          rfl
      · rw [if_neg hab]
        by_cases hlt : i + 1 < inv'.n
        · rw [if_pos hlt]
          refine ⟨inv, [Act.revokeUrl iv2 i], ?_, hfin, rfl, ?_⟩
          · rw [setPC_get_ne _ _ _ _ hne]
            exact hinv
          · intro a ha
            simp at ha
            subst ha
            rfl
        · rw [if_neg hlt]
          refine ⟨inv, [Act.revokeUrl iv2 i, Act.resetBtn inv'.btn],
            ?_, hfin, rfl, ?_⟩
          · rw [setPC_get_ne _ _ _ _ hne]
            exact hinv
          · intro a ha
            simp at ha
            rcases ha with rfl | rfl <;> rfl
    next hpc => exact ⟨inv, [], hinv, hfin, by simp, by simp⟩

lemma step_finished (s : Sys) (c : Cmd) (iv : Nat) (inv : Inv)
    (hinv : s.invs[iv]? = some inv) (hfin : inv.pc = PC.finished) :
    ∃ (invf : Inv) (ext : List Act),
      (step s c).invs[iv]? = some invf ∧ invf.pc = PC.finished ∧
      (step s c).trace = s.trace ++ ext ∧
      ∀ a ∈ ext, isProgress iv a = false := by
  have hnp : ∀ i a, inv.pc ≠ PC.awaitPlay i a := by
    rw [hfin]
    intro i a h
    cases h
  cases c with
  | stop =>
    exact ⟨inv, stopSeg s, stopTTS_get_keep s iv inv hinv hnp, hfin,
      stopTTS_trace s, stopSeg_no_progress s iv⟩
  | play b text =>
    show ∃ (invf : Inv) (ext : List Act),
      (playStep s b text).invs[iv]? = some invf ∧ invf.pc = PC.finished ∧
      (playStep s b text).trace = s.trace ++ ext ∧
      ∀ a ∈ ext, isProgress iv a = false
    unfold playStep
    by_cases hb : b < s.btns.length
    · rw [if_pos hb]
      have hkeep := stopTTS_get_keep s iv inv hinv hnp
      have hlt : iv < (stopTTS s).invs.length := getElem?_lt _ _ _ hkeep
      refine ⟨inv, stopSeg s ++ [Act.setLoading b,
        Act.fetchIssue (stopTTS s).invs.length 0], ?_, hfin, ?_, ?_⟩
      · rw [List.getElem?_append_left hlt]
        exact hkeep
      · rw [stopTTS_trace, List.append_assoc]
      · intro a ha
        rcases List.mem_append.mp ha with h | h
        · exact stopSeg_no_progress s iv a h
        · have hivlt : iv < s.invs.length := getElem?_lt _ _ _ hinv
          have hlen : (stopTTS s).invs.length = s.invs.length :=
            stopTTS_invs_length s
          simp at h
          rcases h with rfl | rfl
          · rfl
          · simp only [isProgress, decide_eq_false_iff_not]
            omega
    · rw [if_neg hb]
      exact ⟨inv, [], hinv, hfin, by simp, by simp⟩
  | fetchRes iv2 ok => exact fetchStep_finished s iv2 ok iv inv hinv hfin
  | blobRes iv2 => exact blobStep_finished s iv2 iv inv hinv hfin
  | playEnd iv2 o => exact playEndStep_finished s iv2 o iv inv hinv hfin

lemma run_finished (s : Sys) (cmds : List Cmd) (iv : Nat) (inv : Inv)
    (hinv : s.invs[iv]? = some inv) (hfin : inv.pc = PC.finished) :
    ∃ (invf : Inv) (ext : List Act),
      (run s cmds).invs[iv]? = some invf ∧ invf.pc = PC.finished ∧
      (run s cmds).trace = s.trace ++ ext ∧
      ∀ a ∈ ext, isProgress iv a = false := by
  induction cmds generalizing s inv with
  | nil => exact ⟨inv, [], hinv, hfin, by simp [run], by simp⟩
  | cons c cs ih =>
    obtain ⟨inv2, ext1, h1, h2, h3, h4⟩ := step_finished s c iv inv hinv hfin
    obtain ⟨inv3, ext2, h5, h6, h7, h8⟩ := ih (step s c) inv2 h1 h2
    refine ⟨inv3, ext1 ++ ext2, h5, h6, ?_, ?_⟩
    · show (run (step s c) cs).trace = s.trace ++ (ext1 ++ ext2)
      rw [h7, h3, List.append_assoc]
    · intro a ha
      rcases List.mem_append.mp ha with h | h
      · exact h4 a h
      · exact h8 a h

/-- C1: starting a narration while any previous invocation is active first
tears the previous one down synchronously — its cancellation token is
signalled, the current audio is paused and dropped, every affordance is
reset, every in-flight fetch is abandoned — all before the new invocation's
first chunk fetch is appended to the trace; consequently at most one
invocation is ever unaborted and at most one audio is audible. -/
theorem c1_teardown_single_narration (s : Sys) (hre : Reachable s)
    (b : Nat) (text : List Char) (hb : b < s.btns.length) :
    ((playStep s b text).trace = s.trace ++ stopSeg s ++
      [Act.setLoading b, Act.fetchIssue (stopTTS s).invs.length 0]) ∧
    (∀ t, s.ttsAbort = some t → Act.sigAbort t ∈ stopSeg s) ∧
    (∀ a, s.currentAudio = some a → Act.pauseAudio a ∈ stopSeg s) ∧
    ((stopTTS s).playing = [] ∧ (stopTTS s).currentAudio = none ∧
      (stopTTS s).btns = s.btns.map (fun _ => BtnPhase.idle) ∧
      (stopTTS s).inflight = []) ∧
    (∀ (iv : Nat) (inv : Inv), s.invs[iv]? = some inv →
      inv.tok ∈ (stopTTS s).aborted) ∧
    (∀ (iv1 iv2 : Nat) (inv1 inv2 : Inv), s.invs[iv1]? = some inv1 →
      s.invs[iv2]? = some inv2 → inv1.tok ∉ s.aborted →
      inv2.tok ∉ s.aborted → iv1 = iv2) ∧
    s.playing.length ≤ 1 := by
  have g := reachable_good s hre
  obtain ⟨g1, htts1, hpl1⟩ := good_stopTTS s g
  refine ⟨?_, ?_, ?_, ⟨hpl1, stopTTS_currentAudio s, stopTTS_btns s,
    stopTTS_inflight_nil s g⟩, stopTTS_aborts_all s g, ?_, ?_⟩
  · unfold playStep
    rw [if_pos hb]
    show (stopTTS s).trace ++ _ = _
    rw [stopTTS_trace, List.append_assoc]
  · intro t ht
    unfold stopSeg
    rw [ht]
    exact List.mem_append.mpr (Or.inl (List.mem_append.mpr (Or.inl
      (List.mem_cons_self _ _))))
  · intro a ha
    unfold stopSeg
    rw [ha]
    exact List.mem_append.mpr (Or.inl (List.mem_append.mpr (Or.inr
      (List.mem_singleton.mpr rfl))))
  · intro iv1 iv2 inv1 inv2 h1 h2 hna1 hna2
    have e1 := g.active_tts iv1 inv1 h1 hna1
    have e2 := g.active_tts iv2 inv2 h2 hna2
    rw [e1] at e2
    have e3 : inv1.tok = inv2.tok := (Option.some.injEq _ _).mp e2
    have e4 := g.tok_eq iv1 inv1 h1
    have e5 := g.tok_eq iv2 inv2 h2
    omega
  · rcases g.playing_ok with h | ⟨iv, inv, i, a, h2, hp, hna, hpl⟩
    · rw [h]
      decide
    · rw [hpl]
      simp

/-- C2: in every reachable trace the prefetch discipline holds — a chunk
fetch with positive index is issued in the same synchronous continuation as
the previous chunk's response (immediately after its `fetchOk`), a chunk is
decoded only after the next chunk's fetch was issued, playback starts only
after the chunk-0 fetch was issued — and no invocation ever has more than
two chunk fetches concurrently in flight. -/
theorem c2_prefetch_pipeline (s : Sys) (hre : Reachable s) :
    adjOK s.trace = true ∧ seenOK [] s.trace = true ∧
    ∀ iv, (s.inflight.filter (fun p => p.1 = iv)).length ≤ 2 := by
  have g := reachable_good s hre
  refine ⟨g.adj, g.seen, ?_⟩
  intro iv
  by_cases hex : ∃ inv, s.invs[iv]? = some inv
  · obtain ⟨inv, hinv⟩ := hex
    rw [g.inflight_pc iv inv hinv]
    by_cases hab : inv.tok ∈ s.aborted
    · rw [if_pos hab]
      decide
    · rw [if_neg hab]
      cases inv.pc with
      | awaitFetch i => simp [pcInflight]
      | awaitBlob i =>
        by_cases hlt : i + 1 < inv.n <;> simp [pcInflight, hlt]
      | awaitPlay i a =>
        by_cases hlt : i + 1 < inv.n <;> simp [pcInflight, hlt]
      | finished => simp [pcInflight]
  · have hnil : s.inflight.filter (fun p => p.1 = iv) = [] := by
      refine List.filter_eq_nil_iff.mpr ?_
      intro p hp
      have hsc := g.inflight_scope p hp
      simp only [decide_eq_true_eq]
      intro hpe
      rw [hpe] at hsc
      exact hex ⟨s.invs[iv], List.getElem?_eq_getElem hsc⟩
    rw [hnil]
    decide

/-- C3: the two failure kinds are asymmetric. A failed chunk fetch (here:
non-OK response; a rejected request only occurs for an aborted token, whose
catch is silent) reports the error, resets the affordance, terminates the
invocation, and no chunk of that invocation is ever fetched, decoded or
played afterwards. A decode or playback failure is indistinguishable from a
natural end — the handler ignores the outcome — and when more chunks remain
the invocation continues with chunk `i + 1`. -/
theorem c3_error_asymmetry (s : Sys) (hre : Reachable s) (iv i : Nat)
    (inv : Inv) (hinv : s.invs[iv]? = some inv)
    (hpc : inv.pc = PC.awaitFetch i) (hna : inv.tok ∉ s.aborted) :
    ((fetchStep s iv false).trace = s.trace ++
      [Act.fetchFail iv i, Act.errorReported iv, Act.resetBtn inv.btn]) ∧
    ((fetchStep s iv false).btns = s.btns.set inv.btn BtnPhase.idle) ∧
    ((fetchStep s iv false).invs[iv]? =
      some { inv with pc := PC.finished }) ∧
    (∀ cmds, ∃ (invf : Inv) (ext : List Act),
      (run (fetchStep s iv false) cmds).invs[iv]? = some invf ∧
      invf.pc = PC.finished ∧
      (run (fetchStep s iv false) cmds).trace =
        (fetchStep s iv false).trace ++ ext ∧
      ∀ a ∈ ext, isProgress iv a = false) ∧
    (∀ (iv2 : Nat) (o1 o2 : POut),
      playEndStep s iv2 o1 = playEndStep s iv2 o2) ∧
    (∀ (iv2 i2 aid : Nat) (inv2 : Inv) (o : POut),
      s.invs[iv2]? = some inv2 → inv2.pc = PC.awaitPlay i2 aid →
      i2 + 1 < inv2.n →
      (playEndStep s iv2 o).invs[iv2]? =
        some { inv2 with pc := PC.awaitFetch (i2 + 1) }) := by
  have hab : ¬ (s.aborted.contains inv.tok = true) := by simpa using hna
  have hstep : fetchStep s iv false =
      { s with invs := setPC s.invs iv PC.finished,
               inflight := s.inflight.filter (fun p => !(p = (iv, i))),
               btns := s.btns.set inv.btn BtnPhase.idle,
               trace := s.trace ++ [Act.fetchFail iv i, Act.errorReported iv,
                 Act.resetBtn inv.btn] } := by
    unfold fetchStep
    split
    next heq =>
      rw [heq] at hinv
      exact Option.noConfusion hinv
    next inv' hinv' =>
      have he : inv' = inv := by
        rw [hinv'] at hinv
        exact (Option.some.injEq _ _).mp hinv
      subst he
      split
      next i2 hpc2 =>
        rw [hpc] at hpc2
        cases hpc2
        rw [if_neg hab, if_neg (by simp)]
      next hno => exact absurd hpc (hno i)
  refine ⟨?_, ?_, ?_, ?_, ?_, ?_⟩
  · rw [hstep]
  · rw [hstep]
  · rw [hstep]
    exact setPC_get_self s.invs iv PC.finished inv hinv
  · intro cmds
    have hget : (fetchStep s iv false).invs[iv]? =
        some { inv with pc := PC.finished } := by
      rw [hstep]
      exact setPC_get_self s.invs iv PC.finished inv hinv
    exact run_finished (fetchStep s iv false) cmds iv _ hget rfl
  · intro iv2 o1 o2
    rfl
  · intro iv2 i2 aid inv2 o h2 hp2 hlt2
    have g := reachable_good s hre
    have habm := g.play_unaborted iv2 inv2 i2 aid h2 hp2
    have hab2 : ¬ (s.aborted.contains inv2.tok = true) := by simpa using habm
    unfold playEndStep
    split
    next heq =>
      rw [heq] at h2
      exact Option.noConfusion h2
    next inv' hinv' =>
      have he : inv' = inv2 := by
        rw [hinv'] at h2
        exact (Option.some.injEq _ _).mp h2
      subst he
      split
      next i3 aid3 hpc3 =>
        rw [hp2] at hpc3
        cases hpc3
        simp only [List.append_assoc, List.cons_append, List.nil_append]
        rw [if_neg hab2, if_pos hlt2]
        exact setPC_get_self s.invs iv2 (PC.awaitFetch (i2 + 1)) inv' h2
      next hno => exact absurd hp2 (hno i2 aid)

/-- C4 (amended): release of a chunk's playback resource is invoked at least
once on every exit path — the revocation store marks every created URL whose
chunk is no longer playing — and `URL.revokeObjectURL` is idempotent, so a
repeated release (which the code does perform, via stale once-listeners) is
a safe no-op and no resource is leaked. -/
theorem c4_resource_release (s : Sys) (hre : Reachable s) :
    (∀ (p : Nat × Nat) (l : List (Nat × Nat)), p ∈ l →
      insertRevoked p l = l) ∧
    (∀ iv i n, Act.createUrl iv i n ∈ s.trace →
      (iv, i) ∈ s.revoked ∨ ∃ (inv : Inv) (a : Nat),
        s.invs[iv]? = some inv ∧ inv.pc = PC.awaitPlay i a) := by
  refine ⟨?_, (reachable_good s hre).url_exit⟩
  intro p l hp
  unfold insertRevoked
  rw [if_pos hp]

/-- C4, falsifying the unamended claim: after a chunk's playback ends
naturally its object URL is revoked once, but its abort listener is never
removed; when a later narration starts, `stopTTS` aborts the stale
controller, the listener fires, and the same URL is revoked a second time —
the trace below records `revokeUrl 0 0` twice (the store, being idempotent,
still holds it once). -/
theorem c4_double_revoke_counterexample :
    ((run (init 2) [Cmd.play 0 ("Hi.".toList), Cmd.fetchRes 0 true,
      Cmd.blobRes 0, Cmd.playEnd 0 POut.ended,
      Cmd.play 1 ("Hi.".toList)]).trace.count (Act.revokeUrl 0 0) = 2) ∧
    ((run (init 2) [Cmd.play 0 ("Hi.".toList), Cmd.fetchRes 0 true,
      Cmd.blobRes 0, Cmd.playEnd 0 POut.ended,
      Cmd.play 1 ("Hi.".toList)]).revoked = [(0, 0)]) := by
  decide

theorem c1_teardown_single_narration_witness :
    0 < (run (init 1) [Cmd.play 0 ("Hi.".toList), Cmd.fetchRes 0 true,
      Cmd.blobRes 0]).btns.length ∧
    (playStep (run (init 1) [Cmd.play 0 ("Hi.".toList), Cmd.fetchRes 0 true,
      Cmd.blobRes 0]) 0 ("Hi.".toList)).trace =
      (run (init 1) [Cmd.play 0 ("Hi.".toList), Cmd.fetchRes 0 true,
        Cmd.blobRes 0]).trace ++
      stopSeg (run (init 1) [Cmd.play 0 ("Hi.".toList), Cmd.fetchRes 0 true,
        Cmd.blobRes 0]) ++
      [Act.setLoading 0, Act.fetchIssue
        (stopTTS (run (init 1) [Cmd.play 0 ("Hi.".toList),
          Cmd.fetchRes 0 true, Cmd.blobRes 0])).invs.length 0] :=
  ⟨by decide, (c1_teardown_single_narration _
    ⟨1, [Cmd.play 0 ("Hi.".toList), Cmd.fetchRes 0 true, Cmd.blobRes 0], rfl⟩
    0 ("Hi.".toList) (by decide)).1⟩

theorem c2_prefetch_pipeline_witness :
    Reachable (run (init 1) [Cmd.play 0 ("A! B? C!".toList),
      Cmd.fetchRes 0 true, Cmd.blobRes 0, Cmd.playEnd 0 POut.ended,
      Cmd.fetchRes 0 true, Cmd.blobRes 0, Cmd.playEnd 0 POut.ended,
      Cmd.fetchRes 0 true, Cmd.blobRes 0, Cmd.playEnd 0 POut.ended]) ∧
    (adjOK (run (init 1) [Cmd.play 0 ("A! B? C!".toList),
      Cmd.fetchRes 0 true, Cmd.blobRes 0, Cmd.playEnd 0 POut.ended,
      Cmd.fetchRes 0 true, Cmd.blobRes 0, Cmd.playEnd 0 POut.ended,
      Cmd.fetchRes 0 true, Cmd.blobRes 0, Cmd.playEnd 0 POut.ended]).trace =
        true ∧
     seenOK [] (run (init 1) [Cmd.play 0 ("A! B? C!".toList),
      Cmd.fetchRes 0 true, Cmd.blobRes 0, Cmd.playEnd 0 POut.ended,
      Cmd.fetchRes 0 true, Cmd.blobRes 0, Cmd.playEnd 0 POut.ended,
      Cmd.fetchRes 0 true, Cmd.blobRes 0, Cmd.playEnd 0 POut.ended]).trace =
        true ∧
     ∀ iv, ((run (init 1) [Cmd.play 0 ("A! B? C!".toList),
      Cmd.fetchRes 0 true, Cmd.blobRes 0, Cmd.playEnd 0 POut.ended,
      Cmd.fetchRes 0 true, Cmd.blobRes 0, Cmd.playEnd 0 POut.ended,
      Cmd.fetchRes 0 true, Cmd.blobRes 0,
      Cmd.playEnd 0 POut.ended]).inflight.filter
        (fun p => p.1 = iv)).length ≤ 2) :=
  ⟨⟨1, [Cmd.play 0 ("A! B? C!".toList),
      Cmd.fetchRes 0 true, Cmd.blobRes 0, Cmd.playEnd 0 POut.ended,
      Cmd.fetchRes 0 true, Cmd.blobRes 0, Cmd.playEnd 0 POut.ended,
      Cmd.fetchRes 0 true, Cmd.blobRes 0, Cmd.playEnd 0 POut.ended], rfl⟩,
    c2_prefetch_pipeline _ ⟨1, [Cmd.play 0 ("A! B? C!".toList),
      Cmd.fetchRes 0 true, Cmd.blobRes 0, Cmd.playEnd 0 POut.ended,
      Cmd.fetchRes 0 true, Cmd.blobRes 0, Cmd.playEnd 0 POut.ended,
      Cmd.fetchRes 0 true, Cmd.blobRes 0, Cmd.playEnd 0 POut.ended], rfl⟩⟩

theorem c3_error_asymmetry_witness :
    (run (init 1) [Cmd.play 0 ("A! B? C!".toList)]).invs[0]? =
      some ⟨0, 0, 3, PC.awaitFetch 0⟩ ∧
    (fetchStep (run (init 1) [Cmd.play 0 ("A! B? C!".toList)]) 0 false).trace =
      (run (init 1) [Cmd.play 0 ("A! B? C!".toList)]).trace ++
        [Act.fetchFail 0 0, Act.errorReported 0, Act.resetBtn 0] :=
  ⟨by decide, (c3_error_asymmetry _
    ⟨1, [Cmd.play 0 ("A! B? C!".toList)], rfl⟩ 0 0
    ⟨0, 0, 3, PC.awaitFetch 0⟩ (by decide) rfl (by decide)).1⟩

theorem c4_resource_release_witness :
    Reachable (run (init 2) [Cmd.play 0 ("Hi.".toList), Cmd.fetchRes 0 true,
      Cmd.blobRes 0, Cmd.playEnd 0 POut.ended,
      Cmd.play 1 ("Hi.".toList)]) ∧
    ((∀ (p : Nat × Nat) (l : List (Nat × Nat)), p ∈ l →
        insertRevoked p l = l) ∧
     (∀ iv i n, Act.createUrl iv i n ∈
        (run (init 2) [Cmd.play 0 ("Hi.".toList), Cmd.fetchRes 0 true,
          Cmd.blobRes 0, Cmd.playEnd 0 POut.ended,
          Cmd.play 1 ("Hi.".toList)]).trace →
       (iv, i) ∈ (run (init 2) [Cmd.play 0 ("Hi.".toList),
          Cmd.fetchRes 0 true, Cmd.blobRes 0, Cmd.playEnd 0 POut.ended,
          Cmd.play 1 ("Hi.".toList)]).revoked ∨
       ∃ (inv : Inv) (a : Nat),
         (run (init 2) [Cmd.play 0 ("Hi.".toList), Cmd.fetchRes 0 true,
           Cmd.blobRes 0, Cmd.playEnd 0 POut.ended,
           Cmd.play 1 ("Hi.".toList)]).invs[iv]? = some inv ∧
         inv.pc = PC.awaitPlay i a)) :=
  ⟨⟨2, [Cmd.play 0 ("Hi.".toList), Cmd.fetchRes 0 true, Cmd.blobRes 0,
      Cmd.playEnd 0 POut.ended, Cmd.play 1 ("Hi.".toList)], rfl⟩,
    c4_resource_release _ ⟨2, [Cmd.play 0 ("Hi.".toList),
      Cmd.fetchRes 0 true, Cmd.blobRes 0, Cmd.playEnd 0 POut.ended,
      Cmd.play 1 ("Hi.".toList)], rfl⟩⟩

end TTS

end Scarlet
